import Mathlib

/-!
Shallow embedding of the xv6 buffer cache (kernel/bio.c, hashed-bucket
variant) and proofs about its lookup, eviction, release and pin protocol.

The cache state is a fixed pool of buffer slots plus NBUCKET singly linked
bucket chains of slot indices.  The stateful C functions are embedded as
explicit state-passing Lean functions; 32-bit unsigned counter arithmetic is
Nat with explicit `% 2 ^ 32`; the lock operations performed by each code path
are recorded as an explicit event trace so that lock-ordering properties can
be stated.  `panic` is modelled as an error outcome (`Option`/`BGetOut.panic`).

External collaborators that are not part of bio.c (the disk transfer routine
`virtio_disk_rw`, the tick counter `ticks`, and the `struct buf` declaration
from buf.h) are modelled from the spec: the disk is an association list from
(device, block_number) to content, `ticks` is a Nat parameter passed to each
operation, and a buffer slot carries exactly the fields bio.c uses.
-/

namespace Bio

/-- Number of hash buckets (`#define NBUCKET 13` in bio.c). -/
def NBUCKET : Nat := 13

/-- Modulus of the 32-bit unsigned integers used for `refcnt` and `timestamp`. -/
def U32 : Nat := 2 ^ 32

/-- Unsigned 32-bit increment, as performed by the C expression `b->refcnt++`. -/
def uintInc (n : Nat) : Nat := (n + 1) % U32

/-- Unsigned 32-bit decrement, as performed by the C expression `b->refcnt--`:
adding `2^32 - 1` modulo `2^32` is unsigned subtraction of one, including the
wrap-around from 0 to `2^32 - 1`. -/
def uintDec (n : Nat) : Nat := (n + (U32 - 1)) % U32

/-- `BUFMAP_HASH(dev, blockno) = (((dev)<<27)|(blockno)) % NBUCKET`, computed
on 32-bit unsigned integers. -/
def bufmapHash (dev blockno : Nat) : Nat :=
  (((dev <<< 27) % U32) ||| (blockno % U32)) % NBUCKET

/-- One buffer slot (`struct buf`): the bookkeeping fields bio.c reads and
writes, the cached block content (`data`, modelled from the spec as a byte
list since buf.h is not part of this source), and whether the single modelled
caller currently holds the slot's sleep lock. -/
structure Buf where
  dev : Nat
  blockno : Nat
  valid : Bool
  refcnt : Nat
  timestamp : Nat
  lockHeld : Bool
  data : List Nat
deriving Repr, DecidableEq

/-- The all-zero slot: C static storage is zero initialized, and `binit` then
stores `timestamp = 0` and `refcnt = 0` and initializes the sleep lock. -/
def buf0 : Buf :=
  { dev := 0, blockno := 0, valid := false, refcnt := 0, timestamp := 0,
    lockHeld := false, data := [] }

/-- The buffer cache: the fixed slot pool `bcache.buf` (slots addressed by
their position in `bufs`) and the NBUCKET bucket chains `bcache.buckets`,
each chain listed head first.  A chain entry is the index of a slot. -/
structure BCache where
  bufs : List Buf
  chains : List (List Nat)
deriving Repr, DecidableEq

/-- Read slot `i` of the pool (out-of-range reads yield the zero slot). -/
def getBuf (s : BCache) (i : Nat) : Buf := s.bufs.getD i buf0

/-- Update slot `i` of the pool in place. -/
def modifyBuf (s : BCache) (i : Nat) (f : Buf → Buf) : BCache :=
  { s with bufs := s.bufs.set i (f (getBuf s i)) }

/-- Read the chain of bucket `j`. -/
def getChain (s : BCache) (j : Nat) : List Nat := s.chains.getD j []

/-- Replace the chain of bucket `j`. -/
def setChain (s : BCache) (j : Nat) (c : List Nat) : BCache :=
  { s with chains := s.chains.set j c }

/-- `binit`: all `nbuf` slots start zeroed; the init loop pushes every slot at
the head of bucket 0's chain in pool order, so the final chain lists the slots
in descending index order; buckets 1 .. NBUCKET-1 start empty. -/
def binit (nbuf : Nat) : BCache :=
  { bufs := List.replicate nbuf buf0,
    chains := (List.range nbuf).reverse :: List.replicate (NBUCKET - 1) [] }

/-- Lock operations a code path performs, in order: the cache-wide lock
`bcache.lock`, a bucket lock `bcache.buckets_lock[i]`, and the acquisition of
a slot's sleep lock (never released inside `bget`). -/
inductive Ev where
  | acqCache : Ev
  | relCache : Ev
  | acqBucket : Nat → Ev
  | relBucket : Nat → Ev
  | acqSleep : Nat → Ev
deriving Repr, DecidableEq

/-- Outcome of `bget`: a slot index, or the `panic("bget: no buffers")` abort. -/
inductive BGetOut where
  | ok : Nat → BGetOut
  | panic : BGetOut
deriving Repr, DecidableEq

/-- The hit bookkeeping common to the fast path and the slow-path re-check:
`b->refcnt++; b->timestamp = ticks;`. -/
def bgetHit (s : BCache) (i ticks : Nat) : BCache :=
  modifyBuf s i (fun b => { b with refcnt := uintInc b.refcnt, timestamp := ticks })

/-- `acquiresleep(&b->lock)` by the modelled caller. -/
def acquireSleep (s : BCache) (i : Nat) : BCache :=
  modifyBuf s i (fun b => { b with lockHeld := true })

/-- The chain scan `for(b = bcache.buckets[key].next; b; b = b->next)` looking
for a slot with matching `dev` and `blockno`; returns the first match. -/
def findInChain (s : BCache) (is : List Nat) (dev blockno : Nat) : Option Nat :=
  match is with
  | [] => none
  | i :: rest =>
    if (getBuf s i).dev = dev ∧ (getBuf s i).blockno = blockno then some i
    else findInChain s rest dev blockno

/-- The running eviction candidate: `before_least` points at the chain node
preceding the candidate buffer, so the candidate is position `pos` of bucket
`bucket`'s chain and `before_least` is position `pos - 1` (the bucket head
when `pos = 0`). -/
structure Cand where
  bucket : Nat
  pos : Nat
deriving Repr, DecidableEq

/-- The slot index of the current candidate `before_least->next`. -/
def candSlot (s : BCache) (c : Cand) : Nat := (getChain s c.bucket).getD c.pos 0

/-- `before_least->timestamp`: the timestamp of the node preceding the
candidate.  When the candidate is at the head of its chain this node is the
bucket head `bcache.buckets[i]`, whose timestamp is never written and stays
at its zero-initialized value 0. -/
def predTs (s : BCache) (c : Cand) : Nat :=
  match c.pos with
  | 0 => 0
  | p + 1 => (getBuf s ((getChain s c.bucket).getD p 0)).timestamp

/-- The comparison `before_least == 0 || b->next->timestamp < before_least->timestamp`.
Note the source compares against the timestamp of `before_least` itself (the
predecessor node), not of the candidate `before_least->next`. -/
def better (s : BCache) (i : Nat) (best : Option Cand) : Bool :=
  match best with
  | none => true
  | some c => decide ((getBuf s i).timestamp < predTs s c)

/-- The inner loop of the eviction scan over one bucket's chain: `rest` is the
remainder of bucket `bk`'s chain starting at position `pos`; `best` is the
candidate so far and `nf` the bucket's `newfound` flag. -/
def walkChain (s : BCache) (bk : Nat) :
    List Nat → Nat → Option Cand → Bool → Option Cand × Bool
  | [], _, best, nf => (best, nf)
  | i :: rest, pos, best, nf =>
    if (getBuf s i).refcnt = 0 ∧ better s i best = true then
      walkChain s bk rest (pos + 1) (some ⟨bk, pos⟩) true
    else
      walkChain s bk rest (pos + 1) best nf

/-- The outer eviction-scan loop over the buckets in `todo`: acquire bucket
`i`'s lock, walk its chain, then release either bucket `i`'s lock (nothing new
found) or the previously held best bucket's lock.  Returns the final
candidate, the bucket whose lock is still held (`holding_bucket`), and the
lock events emitted. -/
def scanGo (s : BCache) :
    List Nat → Option Cand → Option Nat → Option Cand × Option Nat × List Ev
  | [], best, holding => (best, holding, [])
  | i :: rest, best, holding =>
    match walkChain s i (getChain s i) 0 best false, holding with
    | (best2, false), _ =>
      let r := scanGo s rest best2 holding
      (r.1, r.2.1, [Ev.acqBucket i, Ev.relBucket i] ++ r.2.2)
    | (best2, true), none =>
      let r := scanGo s rest best2 (some i)
      (r.1, r.2.1, [Ev.acqBucket i] ++ r.2.2)
    | (best2, true), some h =>
      let r := scanGo s rest best2 (some i)
      (r.1, r.2.1, [Ev.acqBucket i, Ev.relBucket h] ++ r.2.2)

/-- The whole eviction scan `for(int i = 0; i < NBUCKET; i = i + 1) ...`. -/
def evictScan (s : BCache) : Option Cand × Option Nat × List Ev :=
  scanGo s (List.range NBUCKET) none none

/-- Lock events of the slow-path re-check: on a hit the bucket lock is taken
around the bookkeeping update; on a miss the re-check scan emits no lock
events at all (the chain is read under the cache-wide lock only). -/
def recheckEvents (found : Option Nat) (key : Nat) : List Ev :=
  match found with
  | some _ => [Ev.acqBucket key, Ev.relBucket key]
  | none => []

/-- Lock and state effects of claiming the chosen victim: if the victim's
bucket differs from the target bucket, unlink it (`before_least->next =
b->next`), release the holding bucket, acquire the target bucket and push the
victim at the head of its chain; then write the new identity
(`dev/blockno/valid = 0/refcnt = 1/timestamp = ticks`), release the target
bucket lock and the cache lock, and acquire the victim's sleep lock. -/
def bgetEvict (s : BCache) (dev blockno ticks : Nat) (c : Cand) (holding : Nat) :
    BCache × Nat × List Ev :=
  let key := bufmapHash dev blockno
  let v := candSlot s c
  let moved :=
    if holding = key then (s, ([] : List Ev))
    else
      let s0 := setChain s c.bucket ((getChain s c.bucket).eraseIdx c.pos)
      (setChain s0 key (v :: getChain s0 key),
        [Ev.relBucket holding, Ev.acqBucket key])
  let s2 := modifyBuf moved.1 v (fun b =>
    { b with dev := dev, blockno := blockno, valid := false, refcnt := 1,
             timestamp := ticks })
  (acquireSleep s2 v, v,
    moved.2 ++ [Ev.relBucket key, Ev.relCache, Ev.acqSleep v])

/-- The slow path of `bget`, entered after a fast-path miss: acquire the
cache-wide lock, re-scan the target bucket's chain (without its bucket lock),
and on a re-check miss run the eviction scan; an empty scan result is
`panic("bget: no buffers")` after releasing the cache-wide lock. -/
def bgetSlow (s : BCache) (dev blockno ticks : Nat) : BCache × BGetOut × List Ev :=
  let key := bufmapHash dev blockno
  match findInChain s (getChain s key) dev blockno with
  | some i =>
    (acquireSleep (bgetHit s i ticks) i, BGetOut.ok i,
      Ev.acqCache :: recheckEvents (some i) key ++ [Ev.relCache, Ev.acqSleep i])
  | none =>
    match evictScan s with
    | (none, _, scanTr) =>
      (s, BGetOut.panic, Ev.acqCache :: recheckEvents none key ++ scanTr ++ [Ev.relCache])
    | (some c, holding, scanTr) =>
      let e := bgetEvict s dev blockno ticks c (holding.getD 0)
      (e.1, BGetOut.ok e.2.1,
        Ev.acqCache :: recheckEvents none key ++ scanTr ++ e.2.2)

/-- `bget(dev, blockno)`: fast path under the target bucket's lock, then the
slow path on a miss. -/
def bget (s : BCache) (dev blockno ticks : Nat) : BCache × BGetOut × List Ev :=
  let key := bufmapHash dev blockno
  match findInChain s (getChain s key) dev blockno with
  | some i =>
    (acquireSleep (bgetHit s i ticks) i, BGetOut.ok i,
      [Ev.acqBucket key, Ev.relBucket key, Ev.acqSleep i])
  | none =>
    let r := bgetSlow s dev blockno ticks
    (r.1, r.2.1, Ev.acqBucket key :: Ev.relBucket key :: r.2.2)

/-- The disk, modelled from the spec (`disk_transfer` collaborator): an
association list from (device, block_number) to block content. -/
def Disk : Type := List ((Nat × Nat) × List Nat)

/-- Read a block's current content from the modelled disk. -/
def diskRead (dk : Disk) (dev blockno : Nat) : List Nat :=
  match dk with
  | [] => []
  | (k, v) :: rest => if k = (dev, blockno) then v else diskRead rest dev blockno

/-- Write a block's content to the modelled disk. -/
def diskWrite (dk : Disk) (dev blockno : Nat) (d : List Nat) : Disk :=
  ((dev, blockno), d) :: dk

/-- `bread`: `bget`, then fill the slot from disk and set `valid` when the
cached content was not valid.  A panicking `bget` aborts the operation. -/
def bread (s : BCache) (dk : Disk) (dev blockno ticks : Nat) : BCache × BGetOut :=
  match bget s dev blockno ticks with
  | (s1, BGetOut.ok i, _) =>
    if (getBuf s1 i).valid then (s1, BGetOut.ok i)
    else (modifyBuf s1 i (fun b =>
      { b with data := diskRead dk b.dev b.blockno, valid := true }), BGetOut.ok i)
  | (s1, BGetOut.panic, _) => (s1, BGetOut.panic)

/-- `bwrite`: `panic("bwrite")` (here `none`) unless the caller holds the
slot's sleep lock; otherwise flush the slot's content to disk.  No cache
state is modified. -/
def bwrite (s : BCache) (dk : Disk) (i : Nat) : Option (BCache × Disk) :=
  if (getBuf s i).lockHeld then
    some (s, diskWrite dk (getBuf s i).dev (getBuf s i).blockno (getBuf s i).data)
  else none

/-- `brelse`: `panic("brelse")` (here `none`) unless the caller holds the
slot's sleep lock; otherwise release the sleep lock, decrement `refcnt` under
the bucket lock, and stamp `timestamp = ticks` exactly when the count reached
zero. -/
def brelse (s : BCache) (i ticks : Nat) : Option BCache :=
  if (getBuf s i).lockHeld then
    some (modifyBuf s i (fun b =>
      let r := uintDec b.refcnt
      { b with lockHeld := false, refcnt := r,
               timestamp := if r = 0 then ticks else b.timestamp }))
  else none

/-- `bpin`: increment `refcnt` under the slot's bucket lock. -/
def bpin (s : BCache) (i : Nat) : BCache :=
  modifyBuf s i (fun b => { b with refcnt := uintInc b.refcnt })

/-- `bunpin`: decrement `refcnt` under the slot's bucket lock; nothing else
is read or written. -/
def bunpin (s : BCache) (i : Nat) : BCache :=
  modifyBuf s i (fun b => { b with refcnt := uintDec b.refcnt })

/-- One cache operation of a client history: a lookup (`bget` or `bread`),
a release, a pin or an unpin.  Each lookup and release carries the value of
the tick counter at the time of the call. -/
inductive Op where
  | get : Nat → Nat → Nat → Op
  | read : Nat → Nat → Nat → Op
  | rel : Nat → Nat → Op
  | pin : Nat → Op
  | unpin : Nat → Op
deriving Repr, DecidableEq

/-- Apply one operation to the cache.  A panicking call halts the kernel, so
it contributes no state change to a continuing history. -/
def step (dk : Disk) (s : BCache) (op : Op) : BCache :=
  match op with
  | Op.get d bl t => (bget s d bl t).1
  | Op.read d bl t => (bread s dk d bl t).1
  | Op.rel i t => (brelse s i t).getD s
  | Op.pin i => bpin s i
  | Op.unpin i => bunpin s i

/-- Run a history of operations from the freshly initialized cache. -/
def run (nbuf : Nat) (dk : Disk) (ops : List Op) : BCache :=
  ops.foldl (step dk) (binit nbuf)

/-- Number of pool slots whose identity fields currently hold the given
(device, block_number) key. -/
def countKey (s : BCache) (d bl : Nat) : Nat :=
  s.bufs.countP (fun b => b.dev == d && b.blockno == bl)

/-- Effect of one lock event on the set of busy-wait locks held (`none` is
the cache-wide lock, `some i` the lock of bucket `i`); sleep-lock events do
not touch busy-wait locks. -/
def heldStep (held : List (Option Nat)) : Ev → List (Option Nat)
  | Ev.acqCache => none :: held
  | Ev.relCache => held.erase none
  | Ev.acqBucket i => some i :: held
  | Ev.relBucket i => held.erase (some i)
  | Ev.acqSleep _ => held

/-- The busy-wait locks held after a sequence of lock events. -/
def heldRun (held : List (Option Nat)) (tr : List Ev) : List (Option Nat) :=
  tr.foldl heldStep held

/-- Number of bucket locks in a held set. -/
def bucketsHeld (held : List (Option Nat)) : Nat :=
  held.countP (fun o => o.isSome)

/-- Check that after every event of the trace at most `bound` bucket locks
are held simultaneously. -/
def okHeldB (bound : Nat) (held : List (Option Nat)) : List Ev → Bool
  | [] => true
  | e :: rest =>
    let h2 := heldStep held e
    decide (bucketsHeld h2 ≤ bound) && okHeldB bound h2 rest

/-- The bucket indices acquired along a trace, in acquisition order. -/
def acqBucketList (tr : List Ev) : List Nat :=
  tr.filterMap (fun e =>
    match e with
    | Ev.acqBucket i => some i
    | _ => none)

/-- The identity key of a slot. -/
def keyOf (b : Buf) : Nat × Nat := (b.dev, b.blockno)

/-- Well-formedness and uniqueness invariant of a cache state: the bucket
table has NBUCKET chains; chain entries are valid slot indices; each chain is
duplicate free; distinct chains are disjoint; every chain member hashes to
its bucket; every slot is on some chain; and no two distinct slots share an
identity key other than the all-zero key left by initialization. -/
def Inv (s : BCache) : Prop :=
  s.chains.length = NBUCKET ∧
  (∀ j, j < NBUCKET → ∀ i ∈ getChain s j, i < s.bufs.length) ∧
  (∀ j, j < NBUCKET → (getChain s j).Nodup) ∧
  (∀ j1, j1 < NBUCKET → ∀ j2, j2 < NBUCKET →
    ∀ i ∈ getChain s j1, i ∈ getChain s j2 → j1 = j2) ∧
  (∀ j, j < NBUCKET → ∀ i ∈ getChain s j,
    bufmapHash (getBuf s i).dev (getBuf s i).blockno = j) ∧
  (∀ i, i < s.bufs.length → ∃ j, j < NBUCKET ∧ i ∈ getChain s j) ∧
  (∀ i1, i1 < s.bufs.length → ∀ i2, i2 < s.bufs.length →
    i1 = i2 ∨ keyOf (getBuf s i1) ≠ keyOf (getBuf s i2) ∨ keyOf (getBuf s i1) = (0, 0))

set_option synthInstance.maxSize 2000 in
set_option synthInstance.maxHeartbeats 2000000 in
instance (s : BCache) : Decidable (Inv s) := by
  unfold Inv
  infer_instance

/-- A scan candidate is good when its position really addresses a chain entry
and the addressed slot is unreferenced. -/
def goodCand (s : BCache) (c : Cand) : Prop :=
  c.pos < (getChain s c.bucket).length ∧ (getBuf s (candSlot s c)).refcnt = 0

/-- The set of bucket locks held while `holding_bucket` has the given value. -/
def holdingToHeld : Option Nat → List (Option Nat)
  | none => []
  | some h => [some h]

/-- A reachable state exercising the eviction scan: from a two-slot cache,
look up (0,0) at tick 1, look up (1,0) at tick 3 (which evicts slot 0 into
bucket 8), then release slot 0 at tick 5 and slot 1 at tick 7.  Both slots
end unreferenced, slot 0 with `last_used` 5 and slot 1 with `last_used` 7. -/
def c2state : BCache :=
  run 2 [] [Op.get 0 0 1, Op.get 1 0 3, Op.rel 0 5, Op.rel 1 7]

/-- A one-slot cache whose only slot is referenced: every lookup for an
uncached key exhausts the pool. -/
def busy1 : BCache :=
  { bufs := [{ buf0 with refcnt := 1 }],
    chains := [[0]] ++ List.replicate 12 [] }

/-- A one-slot cache whose slot is exclusively locked by the caller, holds
key (0,0) with content [1, 2], and is referenced. -/
def held1 : BCache :=
  { bufs := [{ buf0 with lockHeld := true, refcnt := 1, data := [1, 2] }],
    chains := [[0]] ++ List.replicate 12 [] }

/-- A one-slot cache whose slot is locked and referenced once, with
`last_used` 7: releasing or unpinning it brings `refcnt` back to zero. -/
def ref7 : BCache :=
  { bufs := [{ buf0 with lockHeld := true, refcnt := 1, timestamp := 7 }],
    chains := [[0]] ++ List.replicate 12 [] }

/-! ### Accessor lemmas -/

theorem bufs_length_modifyBuf (s : BCache) (i : Nat) (f : Buf → Buf) :
    (modifyBuf s i f).bufs.length = s.bufs.length := by
  simp [modifyBuf]

theorem getChain_modifyBuf (s : BCache) (i : Nat) (f : Buf → Buf) (j : Nat) :
    getChain (modifyBuf s i f) j = getChain s j := rfl

theorem chains_modifyBuf (s : BCache) (i : Nat) (f : Buf → Buf) :
    (modifyBuf s i f).chains = s.chains := rfl

theorem getBuf_modifyBuf (s : BCache) (i : Nat) (f : Buf → Buf) (j : Nat) :
    getBuf (modifyBuf s i f) j =
      if i = j ∧ i < s.bufs.length then f (getBuf s i) else getBuf s j := by
  by_cases hij : i = j
  · subst hij
    by_cases hlt : i < s.bufs.length
    · simp [getBuf, modifyBuf, List.getD_eq_getElem?_getD, List.getElem?_set_self, hlt]
    · simp [getBuf, modifyBuf, List.set_eq_of_length_le (Nat.le_of_not_lt hlt), hlt]
  · simp [getBuf, modifyBuf, List.getD_eq_getElem?_getD, List.getElem?_set_ne hij, hij]

theorem getBuf_modifyBuf_self (s : BCache) (i : Nat) (f : Buf → Buf)
    (h : i < s.bufs.length) : getBuf (modifyBuf s i f) i = f (getBuf s i) := by
  simp [getBuf_modifyBuf, h]

theorem getBuf_modifyBuf_ne (s : BCache) (i : Nat) (f : Buf → Buf) (j : Nat)
    (h : i ≠ j) : getBuf (modifyBuf s i f) j = getBuf s j := by
  simp [getBuf_modifyBuf, h]

theorem bufs_setChain (s : BCache) (j : Nat) (c : List Nat) :
    (setChain s j c).bufs = s.bufs := rfl

theorem getBuf_setChain (s : BCache) (j : Nat) (c : List Nat) (i : Nat) :
    getBuf (setChain s j c) i = getBuf s i := rfl

theorem chains_length_setChain (s : BCache) (j : Nat) (c : List Nat) :
    (setChain s j c).chains.length = s.chains.length := by
  simp [setChain]

theorem getChain_setChain (s : BCache) (j : Nat) (c : List Nat) (k : Nat) :
    getChain (setChain s j c) k =
      if j = k ∧ j < s.chains.length then c else getChain s k := by
  by_cases hjk : j = k
  · subst hjk
    by_cases hlt : j < s.chains.length
    · simp [getChain, setChain, List.getD_eq_getElem?_getD, List.getElem?_set_self, hlt]
    · simp [getChain, setChain, List.set_eq_of_length_le (Nat.le_of_not_lt hlt), hlt]
  · simp [getChain, setChain, List.getD_eq_getElem?_getD, List.getElem?_set_ne hjk, hjk]

/-! ### findInChain lemmas -/

theorem findInChain_some (s : BCache) (dev blockno : Nat) :
    ∀ is i, findInChain s is dev blockno = some i →
      i ∈ is ∧ (getBuf s i).dev = dev ∧ (getBuf s i).blockno = blockno := by
  intro is
  induction is with
  | nil => intro i h; simp [findInChain] at h
  | cons a rest ih =>
    intro i h
    by_cases hc : (getBuf s a).dev = dev ∧ (getBuf s a).blockno = blockno
    · rw [findInChain, if_pos hc] at h
      cases h
      exact ⟨List.mem_cons_self a rest, hc⟩
    · rw [findInChain, if_neg hc] at h
      rcases ih i h with ⟨h1, h2⟩
      exact ⟨List.mem_cons_of_mem a h1, h2⟩

theorem findInChain_none (s : BCache) (dev blockno : Nat) :
    ∀ is, findInChain s is dev blockno = none ↔
      ∀ i ∈ is, ¬((getBuf s i).dev = dev ∧ (getBuf s i).blockno = blockno) := by
  intro is
  induction is with
  | nil => simp [findInChain]
  | cons a rest ih =>
    by_cases hc : (getBuf s a).dev = dev ∧ (getBuf s a).blockno = blockno
    · rw [findInChain, if_pos hc]
      simp only [List.mem_cons]
      constructor
      · intro h; cases h
      · intro h; exact absurd hc (h a (Or.inl rfl))
    · rw [findInChain, if_neg hc]
      rw [ih]
      constructor
      · intro h i hi
        rcases List.mem_cons.1 hi with rfl | hi2
        · exact hc
        · exact h i hi2
      · intro h i hi
        exact h i (List.mem_cons_of_mem a hi)

theorem findInChain_found (s : BCache) (dev blockno : Nat) (is : List Nat) (i : Nat)
    (hi : i ∈ is) (hd : (getBuf s i).dev = dev) (hb : (getBuf s i).blockno = blockno) :
    ∃ j, findInChain s is dev blockno = some j := by
  cases h : findInChain s is dev blockno with
  | some j => exact ⟨j, rfl⟩
  | none => exact absurd ⟨hd, hb⟩ ((findInChain_none s dev blockno is).1 h i hi)

/-! ### walkChain lemmas -/

theorem walkChain_good (s : BCache) (bk : Nat) :
    ∀ rest pos best nf,
      rest = (getChain s bk).drop pos →
      (∀ c, best = some c → goodCand s c) →
      ∀ c2, (walkChain s bk rest pos best nf).1 = some c2 → goodCand s c2 := by
  intro rest
  induction rest with
  | nil => intro pos best nf _ hb c2 h; exact hb c2 h
  | cons i more ih =>
    intro pos best nf hdrop hb c2 h
    have hpos : (getChain s bk)[pos]? = some i := by
      have hd := List.getElem?_drop (getChain s bk) pos 0
      rw [← hdrop] at hd
      simpa using hd.symm
    obtain ⟨hlt, hgetE⟩ := List.getElem?_eq_some_iff.1 hpos
    have hget : (getChain s bk).getD pos 0 = i := by
      simp [List.getD_eq_getElem?_getD, hpos]
    have hmore : more = (getChain s bk).drop (pos + 1) := by
      have h2 := List.drop_drop 1 pos (getChain s bk)
      rw [← hdrop] at h2
      simpa using h2
    by_cases hc : (getBuf s i).refcnt = 0 ∧ better s i best = true
    · rw [walkChain, if_pos hc] at h
      refine ih (pos + 1) (some ⟨bk, pos⟩) true hmore ?_ c2 h
      intro c hcb
      cases hcb
      refine ⟨hlt, ?_⟩
      show (getBuf s (candSlot s ⟨bk, pos⟩)).refcnt = 0
      rw [candSlot]
      simp only []
      rw [hget]
      exact hc.1
    · rw [walkChain, if_neg hc] at h
      exact ih (pos + 1) best nf hmore hb c2 h

theorem walkChain_cases (s : BCache) (bk : Nat) :
    ∀ rest pos best nf,
      walkChain s bk rest pos best nf = (best, nf) ∨
      ((walkChain s bk rest pos best nf).2 = true ∧
        ∃ p, (walkChain s bk rest pos best nf).1 = some ⟨bk, p⟩) := by
  intro rest
  induction rest with
  | nil => intro pos best nf; left; rfl
  | cons i more ih =>
    intro pos best nf
    by_cases hc : (getBuf s i).refcnt = 0 ∧ better s i best = true
    · rw [walkChain, if_pos hc]
      rcases ih (pos + 1) (some ⟨bk, pos⟩) true with heq | ⟨h1, p, h2⟩
      · right
        rw [heq]
        exact ⟨rfl, pos, rfl⟩
      · right
        exact ⟨h1, p, h2⟩
    · rw [walkChain, if_neg hc]
      exact ih (pos + 1) best nf

theorem walkChain_busy (s : BCache) (bk : Nat) :
    ∀ rest pos best nf, (∀ i ∈ rest, (getBuf s i).refcnt ≠ 0) →
      walkChain s bk rest pos best nf = (best, nf) := by
  intro rest
  induction rest with
  | nil => intro pos best nf _; rfl
  | cons i more ih =>
    intro pos best nf hbusy
    have hc : ¬((getBuf s i).refcnt = 0 ∧ better s i best = true) := by
      intro h
      exact hbusy i (List.mem_cons_self i more) h.1
    rw [walkChain, if_neg hc]
    exact ih (pos + 1) best nf (fun j hj => hbusy j (List.mem_cons_of_mem i hj))

/-! ### Eviction-scan lemmas -/

theorem scanGo_good (s : BCache) :
    ∀ todo best holding, (∀ c, best = some c → goodCand s c) →
      ∀ c2, (scanGo s todo best holding).1 = some c2 → goodCand s c2 := by
  intro todo
  induction todo with
  | nil => intro best holding hb c2 h; exact hb c2 h
  | cons i rest ih =>
    intro best holding hb c2 h
    have hbw : ∀ c, (walkChain s i (getChain s i) 0 best false).1 = some c → goodCand s c :=
      walkChain_good s i (getChain s i) 0 best false (List.drop_zero _).symm hb
    rcases hw : walkChain s i (getChain s i) 0 best false with ⟨best2, nf⟩
    rw [hw] at hbw
    cases nf with
    | false =>
      simp only [scanGo, hw] at h
      exact ih best2 holding hbw c2 h
    | true =>
      cases holding with
      | none =>
        simp only [scanGo, hw] at h
        exact ih best2 (some i) hbw c2 h
      | some hd =>
        simp only [scanGo, hw] at h
        exact ih best2 (some i) hbw c2 h

theorem scanGo_holding (s : BCache) :
    ∀ todo best holding,
      (∀ c, best = some c → holding = some c.bucket) →
      (best = none → holding = none) →
      ∀ c, (scanGo s todo best holding).1 = some c →
        (scanGo s todo best holding).2.1 = some c.bucket := by
  intro todo
  induction todo with
  | nil => intro best holding hb _ c h; exact hb c h
  | cons i rest ih =>
    intro best holding hb hn c h
    rcases hw : walkChain s i (getChain s i) 0 best false with ⟨best2, nf⟩
    have hcase := walkChain_cases s i (getChain s i) 0 best false
    rw [hw] at hcase
    cases nf with
    | false =>
      have hbb : best2 = best := by
        rcases hcase with heq | ⟨h1, _, _⟩
        · exact congrArg Prod.fst heq
        · exact absurd h1 (by simp)
      subst hbb
      simp only [scanGo, hw] at h ⊢
      exact ih best2 holding hb hn c h
    | true =>
      have hb2 : ∃ p, best2 = some (Cand.mk i p) := by
        rcases hcase with heq | ⟨_, p, h2⟩
        · exact absurd (congrArg Prod.snd heq) (by simp)
        · exact ⟨p, h2⟩
      rcases hb2 with ⟨p, hb2⟩
      cases holding with
      | none =>
        simp only [scanGo, hw] at h ⊢
        refine ih best2 (some i) ?_ ?_ c h
        · intro c2 hc2
          rw [hb2] at hc2
          cases hc2
          rfl
        · intro hc2
          rw [hb2] at hc2
          cases hc2
      | some hd =>
        simp only [scanGo, hw] at h ⊢
        refine ih best2 (some i) ?_ ?_ c h
        · intro c2 hc2
          rw [hb2] at hc2
          cases hc2
          rfl
        · intro hc2
          rw [hb2] at hc2
          cases hc2

theorem scanGo_bucket (s : BCache) (P : Nat → Prop) :
    ∀ todo best holding,
      (∀ c, best = some c → P c.bucket) → (∀ i ∈ todo, P i) →
      ∀ c, (scanGo s todo best holding).1 = some c → P c.bucket := by
  intro todo
  induction todo with
  | nil => intro best holding hb _ c h; exact hb c h
  | cons i rest ih =>
    intro best holding hb htodo c h
    have hrest : ∀ j ∈ rest, P j := fun j hj => htodo j (List.mem_cons_of_mem i hj)
    have hPi : P i := htodo i (List.mem_cons_self i rest)
    rcases hw : walkChain s i (getChain s i) 0 best false with ⟨best2, nf⟩
    have hcase := walkChain_cases s i (getChain s i) 0 best false
    rw [hw] at hcase
    have hb2 : ∀ c2, best2 = some c2 → P c2.bucket := by
      rcases hcase with heq | ⟨_, p, h2⟩
      · have hbb : best2 = best := congrArg Prod.fst heq
        rw [hbb]
        exact hb
      · have h2' : best2 = some (Cand.mk i p) := h2
        intro c2 hc2
        rw [h2'] at hc2
        cases hc2
        exact hPi
    cases nf with
    | false =>
      simp only [scanGo, hw] at h
      exact ih best2 holding hb2 hrest c h
    | true =>
      cases holding with
      | none =>
        simp only [scanGo, hw] at h
        exact ih best2 (some i) hb2 hrest c h
      | some hd =>
        simp only [scanGo, hw] at h
        exact ih best2 (some i) hb2 hrest c h

theorem scanGo_busy (s : BCache) :
    ∀ todo best holding, (∀ j ∈ todo, ∀ i ∈ getChain s j, (getBuf s i).refcnt ≠ 0) →
      scanGo s todo best holding =
        (best, holding, todo.flatMap fun i => [Ev.acqBucket i, Ev.relBucket i]) := by
  intro todo
  induction todo with
  | nil => intro best holding _; rfl
  | cons i rest ih =>
    intro best holding hbusy
    have hw : walkChain s i (getChain s i) 0 best false = (best, false) :=
      walkChain_busy s i (getChain s i) 0 best false
        (hbusy i (List.mem_cons_self i rest))
    simp only [scanGo, hw, ih best holding (fun j hj => hbusy j (List.mem_cons_of_mem i hj))]
    simp

theorem evictScan_good (s : BCache) (c : Cand) (h : (evictScan s).1 = some c) :
    goodCand s c :=
  scanGo_good s (List.range NBUCKET) none none (fun _ hc => by cases hc) c h

theorem evictScan_holding (s : BCache) (c : Cand) (h : (evictScan s).1 = some c) :
    (evictScan s).2.1 = some c.bucket :=
  scanGo_holding s (List.range NBUCKET) none none (fun _ hc => by cases hc)
    (fun _ => rfl) c h

theorem evictScan_bucket_lt (s : BCache) (c : Cand) (h : (evictScan s).1 = some c) :
    c.bucket < NBUCKET :=
  scanGo_bucket s (fun b => b < NBUCKET) (List.range NBUCKET) none none
    (fun _ hc => by cases hc) (fun i hi => List.mem_range.1 hi) c h

/-! ### Lock-trace accounting lemmas -/

theorem heldRun_append (held : List (Option Nat)) (t1 t2 : List Ev) :
    heldRun held (t1 ++ t2) = heldRun (heldRun held t1) t2 := by
  simp [heldRun, List.foldl_append]

theorem okHeldB_append (b : Nat) :
    ∀ (t1 t2 : List Ev) (held : List (Option Nat)),
      okHeldB b held (t1 ++ t2) =
        (okHeldB b held t1 && okHeldB b (heldRun held t1) t2) := by
  intro t1
  induction t1 with
  | nil => intro t2 held; simp [okHeldB, heldRun]
  | cons e t1 ih =>
    intro t2 held
    simp only [List.cons_append, okHeldB, List.append_eq]
    rw [ih, ← Bool.and_assoc]
    rfl

theorem bucketsHeld_holdingToHeld (holding : Option Nat) :
    bucketsHeld (holdingToHeld holding) ≤ 1 := by
  cases holding <;> simp [bucketsHeld, holdingToHeld]

theorem scanGo_acq (s : BCache) :
    ∀ todo best holding, acqBucketList (scanGo s todo best holding).2.2 = todo := by
  intro todo
  induction todo with
  | nil => intro best holding; rfl
  | cons i rest ih =>
    intro best holding
    rcases hw : walkChain s i (getChain s i) 0 best false with ⟨best2, nf⟩
    cases nf with
    | false =>
      simp only [scanGo, hw]
      simp only [acqBucketList, List.cons_append, List.nil_append, List.filterMap_cons]
      simp only [acqBucketList] at ih
      rw [ih best2 holding]
    | true =>
      cases holding with
      | none =>
        simp only [scanGo, hw]
        simp only [acqBucketList, List.cons_append, List.nil_append, List.filterMap_cons]
        simp only [acqBucketList] at ih
        rw [ih best2 (some i)]
      | some hd =>
        simp only [scanGo, hw]
        simp only [acqBucketList, List.cons_append, List.nil_append, List.filterMap_cons]
        simp only [acqBucketList] at ih
        rw [ih best2 (some i)]

theorem scanGo_held (s : BCache) :
    ∀ todo best holding, todo.Nodup →
      (∀ h, holding = some h → h ∉ todo) →
      okHeldB 2 (holdingToHeld holding) (scanGo s todo best holding).2.2 = true ∧
      heldRun (holdingToHeld holding) (scanGo s todo best holding).2.2 =
        holdingToHeld (scanGo s todo best holding).2.1 := by
  intro todo
  induction todo with
  | nil => intro best holding _ _; exact ⟨rfl, rfl⟩
  | cons i rest ih =>
    intro best holding hnd hout
    have hndr : rest.Nodup := (List.nodup_cons.1 hnd).2
    have hinr : i ∉ rest := (List.nodup_cons.1 hnd).1
    rcases hw : walkChain s i (getChain s i) 0 best false with ⟨best2, nf⟩
    cases holding with
    | none =>
      cases nf with
      | false =>
        have hrec := ih best2 none hndr (fun h hh => by cases hh)
        simp only [holdingToHeld] at hrec ⊢
        simp only [scanGo, hw]
        constructor
        · simp only [List.cons_append, List.nil_append, List.append_eq, okHeldB, heldStep]
          simp [bucketsHeld, hrec.1]
        · simp only [List.cons_append, List.nil_append, List.append_eq, heldRun,
            List.foldl_cons, heldStep]
          simp only [List.erase_cons_head]
          exact hrec.2
      | true =>
        have hrec := ih best2 (some i) hndr (fun h hh => by cases hh; exact hinr)
        simp only [holdingToHeld] at hrec ⊢
        simp only [scanGo, hw]
        constructor
        · simp only [List.cons_append, List.nil_append, List.append_eq, okHeldB, heldStep]
          simp [bucketsHeld, hrec.1]
        · simp only [List.cons_append, List.nil_append, List.append_eq, heldRun,
            List.foldl_cons, heldStep]
          exact hrec.2
    | some hd =>
      have hdi : hd ≠ i := by
        intro hh
        exact hout hd rfl (hh ▸ List.mem_cons_self i rest)
      have hdir : hd ∉ rest := fun hh => hout hd rfl (List.mem_cons_of_mem i hh)
      have hbeq : ¬(((some i : Option Nat)) == some hd) := by
        simp [Ne.symm hdi]
      cases nf with
      | false =>
        have hrec := ih best2 (some hd) hndr (fun h hh => by cases hh; exact hdir)
        simp only [holdingToHeld] at hrec ⊢
        simp only [scanGo, hw]
        constructor
        · simp only [List.cons_append, List.nil_append, List.append_eq, okHeldB, heldStep]
          simp [bucketsHeld, hrec.1]
        · simp only [List.cons_append, List.nil_append, List.append_eq, heldRun,
            List.foldl_cons, heldStep]
          simp only [List.erase_cons_head]
          exact hrec.2
      | true =>
        have hrec := ih best2 (some i) hndr (fun h hh => by cases hh; exact hinr)
        simp only [holdingToHeld] at hrec ⊢
        simp only [scanGo, hw]
        constructor
        · simp only [List.cons_append, List.nil_append, List.append_eq, okHeldB, heldStep]
          simp only [List.erase_cons_tail hbeq, List.erase_cons_head]
          simp [bucketsHeld, hrec.1]
        · simp only [List.cons_append, List.nil_append, List.append_eq, heldRun,
            List.foldl_cons, heldStep]
          simp only [List.erase_cons_tail hbeq, List.erase_cons_head]
          exact hrec.2

theorem evictScan_held (s : BCache) :
    okHeldB 2 [] (evictScan s).2.2 = true ∧
    heldRun [] (evictScan s).2.2 = holdingToHeld (evictScan s).2.1 := by
  have h := scanGo_held s (List.range NBUCKET) none none (List.nodup_range NBUCKET)
    (fun h hh => by cases hh)
  exact h

theorem evictScan_acq (s : BCache) :
    acqBucketList (evictScan s).2.2 = List.range NBUCKET :=
  scanGo_acq s (List.range NBUCKET) none none

theorem heldRun_scanPairs :
    ∀ (todo : List Nat) (held : List (Option Nat)),
      heldRun held (todo.flatMap fun i => [Ev.acqBucket i, Ev.relBucket i]) = held := by
  intro todo
  induction todo with
  | nil => intro held; rfl
  | cons i rest ih =>
    intro held
    simp only [List.flatMap_cons, List.cons_append, List.nil_append, heldRun,
      List.foldl_cons, heldStep]
    simp only [List.erase_cons_head]
    exact ih held

theorem uintDec_zero : uintDec 0 = U32 - 1 := by
  norm_num [uintDec, U32]

theorem uintDec_of_pos (n : Nat) (h1 : 0 < n) (h2 : n < U32) : uintDec n = n - 1 := by
  have : n + (U32 - 1) = (n - 1) + U32 := by omega
  rw [uintDec, this, Nat.add_mod_right, Nat.mod_eq_of_lt (by omega)]

/-! ### Claim theorems: lock discipline of the eviction scan (C5) -/

/-- C5 counterexample: already on the freshly initialized one-slot cache, the
eviction scan holds two bucket locks at once (bucket 0, which houses the
candidate, is still locked while the scan acquires bucket 1), so "at most one
bucket lock is held at any time" is false. -/
theorem c5_counterexample : okHeldB 1 [] (evictScan (binit 1)).2.2 = false := by
  decide

/-- C5 (amended): throughout the eviction scan the bucket locks are acquired
exactly in ascending index order 0 .. NBUCKET-1 (each exactly once); at most
TWO bucket locks are held at any instant — the bucket of the best candidate
so far plus the bucket currently being scanned — in addition to the
cache-wide lock; a superseded or non-contributing bucket's lock is released
before the next bucket is acquired, so at the end of the scan only the
candidate-holding bucket's lock remains held. -/
theorem c5_scan_lock_discipline (s : BCache) :
    acqBucketList (evictScan s).2.2 = List.range NBUCKET ∧
    okHeldB 2 [] (evictScan s).2.2 = true ∧
    heldRun [] (evictScan s).2.2 = holdingToHeld (evictScan s).2.1 :=
  ⟨evictScan_acq s, (evictScan_held s).1, (evictScan_held s).2⟩

/-! ### Claim theorems: the scan never selects a referenced buffer (C3) -/

/-- C3: whenever the eviction scan returns a candidate, the slot it denotes
(`before_least->next`) has `refcnt = 0` in the scanned state, i.e. a buffer
with `refcnt > 0` is never chosen for eviction. -/
theorem c3_no_referenced_eviction (s : BCache) (c : Cand)
    (h : (evictScan s).1 = some c) :
    (getBuf s (candSlot s c)).refcnt = 0 ∧ c.pos < (getChain s c.bucket).length :=
  ⟨(evictScan_good s c h).2, (evictScan_good s c h).1⟩

/-- C3 witness: on the freshly initialized one-slot cache the scan returns the
candidate at bucket 0 position 0, and that slot is indeed unreferenced. -/
theorem c3_witness :
    (evictScan (binit 1)).1 = some ⟨0, 0⟩ ∧
    (getBuf (binit 1) (candSlot (binit 1) ⟨0, 0⟩)).refcnt = 0 :=
  ⟨by decide, (c3_no_referenced_eviction (binit 1) ⟨0, 0⟩ (by decide)).1⟩

/-! ### Claim theorems: the LRU choice (C2) -/

/-- C2: the eviction scan does NOT choose the unreferenced slot with the
smallest `last_used`.  In the reachable state `c2state` (two slots, both
unreferenced, slot 0 with `last_used` 5 and slot 1 with `last_used` 7), the
scan selects slot 1 — and a subsequent lookup for an uncached key evicts
slot 1 — even though slot 0 is older.  The cause: the comparison in bio.c
reads `before_least->timestamp` (the predecessor node, here the bucket head
whose timestamp is always 0) instead of the candidate's own
`before_least->next->timestamp`, so no later candidate can beat a
chain-head candidate. -/
theorem c2_lru_violation :
    (evictScan c2state).1 = some ⟨0, 0⟩ ∧
    candSlot c2state ⟨0, 0⟩ = 1 ∧
    (getBuf c2state 1).refcnt = 0 ∧ (getBuf c2state 1).timestamp = 7 ∧
    (getBuf c2state 0).refcnt = 0 ∧ (getBuf c2state 0).timestamp = 5 ∧
    (bget c2state 2 0 9).2.1 = BGetOut.ok 1 := by
  decide

/-! ### Claim theorems: unpin underflow (C10) -/

/-- C10: `bunpin` decrements `refcnt` unconditionally; on a slot whose
`refcnt` is already 0 the 32-bit unsigned count wraps to `2^32 - 1`, which is
nonzero, so the eviction scan can never select that slot afterwards. -/
theorem c10_bunpin_wraps (s : BCache) (i : Nat) (hlt : i < s.bufs.length)
    (h0 : (getBuf s i).refcnt = 0) :
    (getBuf (bunpin s i) i).refcnt = U32 - 1 ∧
    (getBuf (bunpin s i) i).refcnt ≠ 0 ∧
    ∀ c, (evictScan (bunpin s i)).1 = some c → candSlot (bunpin s i) c ≠ i := by
  have hb : getBuf (bunpin s i) i =
      { getBuf s i with refcnt := uintDec (getBuf s i).refcnt } :=
    getBuf_modifyBuf_self s i _ hlt
  have hr : (getBuf (bunpin s i) i).refcnt = U32 - 1 := by
    rw [hb]
    simp [h0, uintDec_zero]
  have hne : (getBuf (bunpin s i) i).refcnt ≠ 0 := by
    rw [hr]
    norm_num [U32]
  refine ⟨hr, hne, ?_⟩
  intro c hc heq
  have hz := (evictScan_good (bunpin s i) c hc).2
  rw [heq] at hz
  exact hne hz

/-- C10 witness: unpinning the unreferenced slot of a fresh one-slot cache
wraps its reference count to `2^32 - 1`. -/
theorem c10_witness : (getBuf (bunpin (binit 1) 0) 0).refcnt = U32 - 1 :=
  (c10_bunpin_wraps (binit 1) 0 (by decide) (by decide)).1

/-! ### Claim theorems: release / unpin timestamp behavior (C8) -/

/-- C8 counterexample: `bunpin` on a slot with `refcnt = 1` and `last_used = 7`
brings the count to zero yet leaves `last_used` at the stale value 7 — `bunpin`
takes no tick at all, so the claimed "sets last_used to the current tick at
the zero transition, Release and Unpin alike" is false for Unpin. -/
theorem c8_counterexample :
    (getBuf (bunpin ref7 0) 0).refcnt = 0 ∧
    (getBuf (bunpin ref7 0) 0).timestamp = 7 := by
  decide

/-- C8 (amended): `brelse` stamps `last_used` with the current tick exactly
when its decrement brings `refcnt` to zero and leaves it unchanged otherwise,
and fails fatally without the sleep lock; `bunpin` never touches `last_used`,
even when its decrement reaches zero. -/
theorem c8_release_unpin_timestamps (s : BCache) (i t : Nat)
    (hlt : i < s.bufs.length) :
    ((getBuf s i).lockHeld = true →
      ∃ s1, brelse s i t = some s1 ∧
        (getBuf s1 i).refcnt = uintDec (getBuf s i).refcnt ∧
        (getBuf s1 i).timestamp =
          (if uintDec (getBuf s i).refcnt = 0 then t else (getBuf s i).timestamp) ∧
        (getBuf s1 i).lockHeld = false) ∧
    ((getBuf s i).lockHeld = false → brelse s i t = none) ∧
    (getBuf (bunpin s i) i).refcnt = uintDec (getBuf s i).refcnt ∧
    (getBuf (bunpin s i) i).timestamp = (getBuf s i).timestamp := by
  refine ⟨?_, ?_, ?_, ?_⟩
  · intro hheld
    refine ⟨_, by rw [brelse, if_pos hheld], ?_⟩
    rw [getBuf_modifyBuf_self s i _ hlt]
    simp
  · intro hfree
    rw [brelse, hfree]
    simp
  · rw [bunpin, getBuf_modifyBuf_self s i _ hlt]
  · rw [bunpin, getBuf_modifyBuf_self s i _ hlt]

/-- C8 witness: releasing the single-reference slot of `ref7` at tick 42
stamps `last_used = 42`, while unpinning it leaves `last_used` untouched. -/
theorem c8_witness :
    (getBuf (bunpin ref7 0) 0).timestamp = (getBuf ref7 0).timestamp :=
  (c8_release_unpin_timestamps ref7 0 42 (by decide)).2.2.2

/-! ### Claim theorems: bwrite contract (C9) -/

/-- C9: `bwrite` aborts fatally when the caller does not hold the slot's
sleep lock; otherwise it flushes the slot's content to disk at the slot's
(device, block_number) address, leaves every other disk block unchanged, and
leaves the entire cache state — all slot fields and all bucket chains —
untouched. -/
theorem c9_bwrite_contract (s : BCache) (dk : Disk) (i : Nat) :
    ((getBuf s i).lockHeld = false → bwrite s dk i = none) ∧
    ((getBuf s i).lockHeld = true →
      bwrite s dk i =
        some (s, diskWrite dk (getBuf s i).dev (getBuf s i).blockno (getBuf s i).data) ∧
      diskRead (diskWrite dk (getBuf s i).dev (getBuf s i).blockno (getBuf s i).data)
        (getBuf s i).dev (getBuf s i).blockno = (getBuf s i).data ∧
      ∀ d2 b2, (d2, b2) ≠ ((getBuf s i).dev, (getBuf s i).blockno) →
        diskRead (diskWrite dk (getBuf s i).dev (getBuf s i).blockno (getBuf s i).data)
          d2 b2 = diskRead dk d2 b2) := by
  constructor
  · intro hfree
    rw [bwrite, hfree]
    simp
  · intro hheld
    refine ⟨by rw [bwrite, hheld]; simp, by simp [diskRead, diskWrite], ?_⟩
    intro d2 b2 hne
    rw [diskWrite, diskRead, if_neg]
    intro heq
    exact hne (heq ▸ rfl)

/-- C9 witness: writing the locked slot of `held1` flushes content [1, 2] to
disk block (0, 0) and returns the cache state unchanged. -/
theorem c9_witness :
    bwrite held1 [] 0 = some (held1, diskWrite [] 0 0 [1, 2]) :=
  ((c9_bwrite_contract held1 [] 0).2 (by decide)).1

/-! ### Claim theorems: the slow-path re-check (C4) -/

/-- C4 counterexample: for the slow path of a lookup of (1, 1) on the fresh
one-slot cache, the target bucket is 9 and the re-check misses; the re-check
emits NO bucket-lock events at all (the chain is scanned under the cache-wide
lock only), and the first bucket lock acquired after the cache-wide lock is
bucket 0 — the start of the eviction scan — not bucket 9.  This contradicts
the claim that the re-check acquires and releases the target bucket's lock
for the check. -/
theorem c4_counterexample :
    bufmapHash 1 1 = 9 ∧
    findInChain (binit 1) (getChain (binit 1) 9) 1 1 = none ∧
    recheckEvents (findInChain (binit 1) (getChain (binit 1) 9) 1 1) 9 = [] ∧
    (bgetSlow (binit 1) 1 1 5).2.2.take 2 = [Ev.acqCache, Ev.acqBucket 0] := by
  decide

/-- C4 (amended): on a fast-path miss the slow path acquires the cache-wide
lock and re-scans the target bucket's chain WITHOUT taking the bucket's lock
for the scan; if a matching slot is found, it acquires that bucket's lock,
increments the slot's `refcnt` and sets `last_used` to the current tick,
releases the bucket lock and the cache-wide lock, acquires the slot's
exclusive sleep lock, and returns the slot without evicting anything: the
bucket chains and every other slot are unchanged. -/
theorem c4_recheck_hit (s : BCache) (d bl t i : Nat) (hlt : i < s.bufs.length)
    (hfind : findInChain s (getChain s (bufmapHash d bl)) d bl = some i) :
    bgetSlow s d bl t =
      (acquireSleep (bgetHit s i t) i, BGetOut.ok i,
        [Ev.acqCache, Ev.acqBucket (bufmapHash d bl), Ev.relBucket (bufmapHash d bl),
         Ev.relCache, Ev.acqSleep i]) ∧
    (getBuf (bgetSlow s d bl t).1 i).refcnt = uintInc (getBuf s i).refcnt ∧
    (getBuf (bgetSlow s d bl t).1 i).timestamp = t ∧
    (getBuf (bgetSlow s d bl t).1 i).lockHeld = true ∧
    (bgetSlow s d bl t).1.chains = s.chains ∧
    ∀ j, j ≠ i → getBuf (bgetSlow s d bl t).1 j = getBuf s j := by
  have hmain : bgetSlow s d bl t =
      (acquireSleep (bgetHit s i t) i, BGetOut.ok i,
        [Ev.acqCache, Ev.acqBucket (bufmapHash d bl), Ev.relBucket (bufmapHash d bl),
         Ev.relCache, Ev.acqSleep i]) := by
    simp only [bgetSlow, hfind, recheckEvents]
    rfl
  have hlen : (bgetHit s i t).bufs.length = s.bufs.length :=
    bufs_length_modifyBuf s i _
  have h1 : getBuf (bgetHit s i t) i =
      { getBuf s i with refcnt := uintInc (getBuf s i).refcnt, timestamp := t } :=
    getBuf_modifyBuf_self s i _ hlt
  have h2 : getBuf (acquireSleep (bgetHit s i t) i) i =
      { getBuf (bgetHit s i t) i with lockHeld := true } :=
    getBuf_modifyBuf_self (bgetHit s i t) i _ (hlen ▸ hlt)
  refine ⟨hmain, ?_, ?_, ?_, ?_, ?_⟩
  · rw [hmain]
    show (getBuf (acquireSleep (bgetHit s i t) i) i).refcnt = _
    rw [h2, h1]
  · rw [hmain]
    show (getBuf (acquireSleep (bgetHit s i t) i) i).timestamp = _
    rw [h2, h1]
  · rw [hmain]
    show (getBuf (acquireSleep (bgetHit s i t) i) i).lockHeld = _
    rw [h2]
  · rw [hmain]
    rfl
  · intro j hj
    rw [hmain]
    show getBuf (acquireSleep (bgetHit s i t) i) j = getBuf s j
    rw [acquireSleep, getBuf_modifyBuf_ne (bgetHit s i t) i _ j (Ne.symm hj),
      bgetHit, getBuf_modifyBuf_ne s i _ j (Ne.symm hj)]

/-- C4 witness: on the fresh one-slot cache the slow path for key (0, 0) hits
in the re-check and returns slot 0. -/
theorem c4_witness : (bgetSlow (binit 1) 0 0 5).2.1 = BGetOut.ok 0 := by
  rw [(c4_recheck_hit (binit 1) 0 0 5 0 (by decide) (by decide)).1]

/-! ### Claim theorems: resource exhaustion (C6) -/

/-- C6: when the requested key is not cached and every slot on every chain is
referenced, `bget` panics ("bget: no buffers") rather than blocking, retrying
or returning a slot: the state is unmodified, the outcome is the fatal abort,
and the emitted lock trace is balanced — after releasing the cache-wide lock
no busy-wait lock remains held at the abort. -/
theorem c6_exhaustion_panics (s : BCache) (d bl t : Nat)
    (hmiss : findInChain s (getChain s (bufmapHash d bl)) d bl = none)
    (hbusy : ∀ j, j < NBUCKET → ∀ i ∈ getChain s j, (getBuf s i).refcnt ≠ 0) :
    bget s d bl t =
      (s, BGetOut.panic,
        [Ev.acqBucket (bufmapHash d bl), Ev.relBucket (bufmapHash d bl), Ev.acqCache] ++
          ((List.range NBUCKET).flatMap fun i => [Ev.acqBucket i, Ev.relBucket i]) ++
          [Ev.relCache]) ∧
    heldRun [] (bget s d bl t).2.2 = [] := by
  have hscan : scanGo s (List.range NBUCKET) none none =
      (none, none, (List.range NBUCKET).flatMap fun i => [Ev.acqBucket i, Ev.relBucket i]) :=
    scanGo_busy s (List.range NBUCKET) none none
      (fun j hj => hbusy j (List.mem_range.1 hj))
  have hmain : bget s d bl t =
      (s, BGetOut.panic,
        [Ev.acqBucket (bufmapHash d bl), Ev.relBucket (bufmapHash d bl), Ev.acqCache] ++
          ((List.range NBUCKET).flatMap fun i => [Ev.acqBucket i, Ev.relBucket i]) ++
          [Ev.relCache]) := by
    simp only [bget, bgetSlow, hmiss, evictScan, hscan, recheckEvents]
    simp
  refine ⟨hmain, ?_⟩
  rw [hmain]
  show heldRun [] _ = []
  rw [heldRun_append, heldRun_append]
  have h1 : heldRun []
      [Ev.acqBucket (bufmapHash d bl), Ev.relBucket (bufmapHash d bl), Ev.acqCache] =
      [none] := by
    simp only [heldRun, List.foldl_cons, List.foldl_nil, heldStep]
    simp only [List.erase_cons_head]
  rw [h1, heldRun_scanPairs]
  simp only [heldRun, List.foldl_cons, List.foldl_nil, heldStep]
  simp only [List.erase_cons_head]

/-- C6 witness: on a one-slot cache whose slot is referenced, a lookup of the
uncached key (1, 1) panics with no busy-wait lock held. -/
theorem c6_witness :
    (bget busy1 1 1 5).2.1 = BGetOut.panic ∧ heldRun [] (bget busy1 1 1 5).2.2 = [] := by
  have h := c6_exhaustion_panics busy1 1 1 5 (by decide) (by decide)
  exact ⟨by rw [h.1], h.2⟩

/-! ### Helpers for the eviction post-state -/

theorem bufmapHash_lt (d bl : Nat) : bufmapHash d bl < NBUCKET :=
  Nat.mod_lt _ (by decide)

theorem getD_mem (l : List Nat) (pos : Nat) (h : pos < l.length) :
    l.getD pos 0 ∈ l := by
  rw [List.getD_eq_getElem?_getD, List.getElem?_eq_getElem h]
  exact List.getElem_mem h

theorem getD_eraseIdx_not_mem :
    ∀ (l : List Nat) (pos : Nat), l.Nodup → pos < l.length →
      l.getD pos 0 ∉ l.eraseIdx pos := by
  intro l
  induction l with
  | nil => intro pos _ h; cases h
  | cons a rest ih =>
    intro pos hnd hpos
    cases pos with
    | zero =>
      simpa using (List.nodup_cons.1 hnd).1
    | succ p =>
      have hlt : p < rest.length := Nat.lt_of_succ_lt_succ hpos
      have hmem : rest.getD p 0 ∈ rest := getD_mem rest p hlt
      simp only [List.getD_cons_succ, List.eraseIdx_cons_succ, List.mem_cons]
      intro hc
      rcases hc with heq | hc2
      · exact (List.nodup_cons.1 hnd).1 (heq ▸ hmem)
      · exact ih p (List.nodup_cons.1 hnd).2 hlt hc2

theorem mem_eraseIdx_of_ne :
    ∀ (l : List Nat) (pos i : Nat), i ∈ l → i ≠ l.getD pos 0 →
      i ∈ l.eraseIdx pos := by
  intro l
  induction l with
  | nil => intro pos i h; cases h
  | cons a rest ih =>
    intro pos i hi hne
    cases pos with
    | zero =>
      rcases List.mem_cons.1 hi with rfl | hr
      · simp at hne
      · simpa using hr
    | succ p =>
      simp only [List.eraseIdx_cons_succ, List.mem_cons]
      rcases List.mem_cons.1 hi with rfl | hr
      · exact Or.inl rfl
      · exact Or.inr (ih p i hr (by simpa using hne))

theorem key_absent (s : BCache) (d bl : Nat) (hInv : Inv s)
    (hmiss : findInChain s (getChain s (bufmapHash d bl)) d bl = none) :
    ∀ i, i < s.bufs.length →
      ¬((getBuf s i).dev = d ∧ (getBuf s i).blockno = bl) := by
  obtain ⟨hlen, hmem, hnd, hdisj, hhash, hcompl, huniq⟩ := hInv
  intro i hi hk
  obtain ⟨j, hj, hij⟩ := hcompl i hi
  have hh := hhash j hj i hij
  rw [hk.1, hk.2] at hh
  rw [← hh] at hij
  exact (findInChain_none s d bl _).1 hmiss i hij hk

theorem bgetEvict_decomp_eq (s : BCache) (d bl t : Nat) (c : Cand)
    (hbkey : c.bucket = bufmapHash d bl) :
    bgetEvict s d bl t c c.bucket =
      (acquireSleep (modifyBuf s (candSlot s c) (fun b =>
          { b with dev := d, blockno := bl, valid := false, refcnt := 1,
                   timestamp := t })) (candSlot s c),
        candSlot s c,
        [Ev.relBucket (bufmapHash d bl), Ev.relCache,
         Ev.acqSleep (candSlot s c)]) := by
  simp [bgetEvict, hbkey]

theorem bgetEvict_decomp_ne (s : BCache) (d bl t : Nat) (c : Cand)
    (hbkey : ¬(c.bucket = bufmapHash d bl)) :
    bgetEvict s d bl t c c.bucket =
      (acquireSleep (modifyBuf
          (setChain (setChain s c.bucket ((getChain s c.bucket).eraseIdx c.pos))
            (bufmapHash d bl)
            (candSlot s c ::
              getChain (setChain s c.bucket ((getChain s c.bucket).eraseIdx c.pos))
                (bufmapHash d bl)))
          (candSlot s c) (fun b =>
            { b with dev := d, blockno := bl, valid := false, refcnt := 1,
                     timestamp := t })) (candSlot s c),
        candSlot s c,
        [Ev.relBucket c.bucket, Ev.acqBucket (bufmapHash d bl),
         Ev.relBucket (bufmapHash d bl), Ev.relCache,
         Ev.acqSleep (candSlot s c)]) := by
  simp [bgetEvict, hbkey]

theorem bgetEvict_facts (s : BCache) (d bl t : Nat) (c : Cand)
    (hclen : s.chains.length = NBUCKET)
    (hbk : c.bucket < NBUCKET)
    (hvlt : candSlot s c < s.bufs.length) :
    (bgetEvict s d bl t c c.bucket).2.1 = candSlot s c ∧
    (bgetEvict s d bl t c c.bucket).1.bufs.length = s.bufs.length ∧
    (bgetEvict s d bl t c c.bucket).1.chains.length = s.chains.length ∧
    getBuf (bgetEvict s d bl t c c.bucket).1 (candSlot s c) =
      { dev := d, blockno := bl, valid := false, refcnt := 1, timestamp := t,
        lockHeld := true, data := (getBuf s (candSlot s c)).data } ∧
    (∀ i, i ≠ candSlot s c →
      getBuf (bgetEvict s d bl t c c.bucket).1 i = getBuf s i) ∧
    (∀ j, getChain (bgetEvict s d bl t c c.bucket).1 j =
      if c.bucket = bufmapHash d bl then getChain s j
      else if j = bufmapHash d bl then candSlot s c :: getChain s (bufmapHash d bl)
      else if j = c.bucket then (getChain s c.bucket).eraseIdx c.pos
      else getChain s j) ∧
    ((bgetEvict s d bl t c c.bucket).2.2).getLast? =
      some (Ev.acqSleep (candSlot s c)) := by
  by_cases hbkey : c.bucket = bufmapHash d bl
  · rw [bgetEvict_decomp_eq s d bl t c hbkey]
    have hlen1 : (modifyBuf s (candSlot s c) (fun b =>
        { b with dev := d, blockno := bl, valid := false, refcnt := 1,
                 timestamp := t })).bufs.length = s.bufs.length :=
      bufs_length_modifyBuf s _ _
    have h1 := getBuf_modifyBuf_self s (candSlot s c) (fun b =>
      { b with dev := d, blockno := bl, valid := false, refcnt := 1,
               timestamp := t }) hvlt
    have h2 := getBuf_modifyBuf_self (modifyBuf s (candSlot s c) (fun b =>
      { b with dev := d, blockno := bl, valid := false, refcnt := 1,
               timestamp := t })) (candSlot s c) (fun b => { b with lockHeld := true })
      (hlen1 ▸ hvlt)
    refine ⟨rfl, ?_, rfl, ?_, ?_, ?_, rfl⟩
    · simp [acquireSleep, bufs_length_modifyBuf, hlen1]
    · show getBuf (acquireSleep _ _) _ = _
      rw [acquireSleep, h2, h1]
    · intro i hi
      show getBuf (acquireSleep _ _) i = getBuf s i
      rw [acquireSleep, getBuf_modifyBuf_ne _ _ _ i (Ne.symm hi),
        getBuf_modifyBuf_ne _ _ _ i (Ne.symm hi)]
    · intro j
      rw [if_pos hbkey]
      rfl
  · rw [bgetEvict_decomp_ne s d bl t c hbkey]
    have hkeylt : bufmapHash d bl < NBUCKET := bufmapHash_lt d bl
    have hbufs0 : (setChain (setChain s c.bucket
        ((getChain s c.bucket).eraseIdx c.pos)) (bufmapHash d bl)
        (candSlot s c ::
          getChain (setChain s c.bucket ((getChain s c.bucket).eraseIdx c.pos))
            (bufmapHash d bl))).bufs = s.bufs := rfl
    have hgetM : ∀ i, getBuf (setChain (setChain s c.bucket
        ((getChain s c.bucket).eraseIdx c.pos)) (bufmapHash d bl)
        (candSlot s c ::
          getChain (setChain s c.bucket ((getChain s c.bucket).eraseIdx c.pos))
            (bufmapHash d bl))) i = getBuf s i := fun _ => rfl
    have hlenM : (setChain (setChain s c.bucket
        ((getChain s c.bucket).eraseIdx c.pos)) (bufmapHash d bl)
        (candSlot s c ::
          getChain (setChain s c.bucket ((getChain s c.bucket).eraseIdx c.pos))
            (bufmapHash d bl))).bufs.length = s.bufs.length := rfl
    have h1 := getBuf_modifyBuf_self (setChain (setChain s c.bucket
        ((getChain s c.bucket).eraseIdx c.pos)) (bufmapHash d bl)
        (candSlot s c ::
          getChain (setChain s c.bucket ((getChain s c.bucket).eraseIdx c.pos))
            (bufmapHash d bl))) (candSlot s c) (fun b =>
        { b with dev := d, blockno := bl, valid := false, refcnt := 1,
                 timestamp := t }) (hlenM ▸ hvlt)
    refine ⟨rfl, ?_, ?_, ?_, ?_, ?_, rfl⟩
    · simp [acquireSleep, modifyBuf, setChain]
    · simp [acquireSleep, modifyBuf, setChain]
    · show getBuf (acquireSleep _ _) _ = _
      rw [acquireSleep, getBuf_modifyBuf_self _ _ _ (by
        rw [bufs_length_modifyBuf]
        exact hlenM ▸ hvlt), h1, hgetM]
    · intro i hi
      show getBuf (acquireSleep _ _) i = getBuf s i
      rw [acquireSleep, getBuf_modifyBuf_ne _ _ _ i (Ne.symm hi),
        getBuf_modifyBuf_ne _ _ _ i (Ne.symm hi), hgetM]
    · intro j
      rw [if_neg hbkey]
      have hclen0 : (setChain s c.bucket
          ((getChain s c.bucket).eraseIdx c.pos)).chains.length = s.chains.length :=
        chains_length_setChain s _ _
      show getChain (setChain (setChain s c.bucket
        ((getChain s c.bucket).eraseIdx c.pos)) (bufmapHash d bl) _) j = _
      by_cases hjk : j = bufmapHash d bl
      · subst hjk
        simp only [getChain_setChain, hclen0, hclen]
        have hb2 : ¬(c.bucket = bufmapHash d bl ∧ c.bucket < NBUCKET) :=
          fun hc => hbkey hc.1
        simp [hb2, hkeylt]
      · by_cases hjc : j = c.bucket
        · subst hjc
          simp only [getChain_setChain, hclen0, hclen]
          have hk2 : ¬(bufmapHash d bl = c.bucket ∧ bufmapHash d bl < NBUCKET) :=
            fun hc => hbkey hc.1.symm
          simp [hk2, hjk, hbk]
        · simp only [getChain_setChain, hclen0, hclen]
          have hk2 : ¬(bufmapHash d bl = j ∧ bufmapHash d bl < NBUCKET) :=
            fun hc => hjk hc.1.symm
          have hb2 : ¬(c.bucket = j ∧ c.bucket < NBUCKET) :=
            fun hc => hjc hc.1.symm
          simp [hk2, hb2, hjk, hjc]

theorem bgetEvict_inv (s : BCache) (d bl t : Nat) (c : Cand) (hInv : Inv s)
    (hmiss : findInChain s (getChain s (bufmapHash d bl)) d bl = none)
    (hgood : goodCand s c) (hbk : c.bucket < NBUCKET) :
    Inv (bgetEvict s d bl t c c.bucket).1 := by
  have habsent := key_absent s d bl hInv hmiss
  obtain ⟨hlen, hmem, hnd, hdisj, hhash, hcompl, huniq⟩ := hInv
  have hkeylt : bufmapHash d bl < NBUCKET := bufmapHash_lt d bl
  have hvmem : candSlot s c ∈ getChain s c.bucket := getD_mem _ _ hgood.1
  have hvlt : candSlot s c < s.bufs.length := hmem c.bucket hbk _ hvmem
  obtain ⟨hout, hblen, hclen2, hgbv, hgbo, hch, hlast⟩ :=
    bgetEvict_facts s d bl t c hlen hbk hvlt
  by_cases hbkey : c.bucket = bufmapHash d bl
  · -- no relocation: all chains unchanged
    have hchAll : ∀ j, getChain (bgetEvict s d bl t c c.bucket).1 j = getChain s j := by
      intro j
      rw [hch j, if_pos hbkey]
    refine ⟨?_, ?_, ?_, ?_, ?_, ?_, ?_⟩
    · rw [hclen2, hlen]
    · intro j hj i hi
      rw [hblen]
      rw [hchAll j] at hi
      exact hmem j hj i hi
    · intro j hj
      rw [hchAll j]
      exact hnd j hj
    · intro j1 hj1 j2 hj2 i hi1 hi2
      rw [hchAll j1] at hi1
      rw [hchAll j2] at hi2
      exact hdisj j1 hj1 j2 hj2 i hi1 hi2
    · intro j hj i hi
      rw [hchAll j] at hi
      by_cases hiv : i = candSlot s c
      · rw [hiv, hgbv]
        have him : i ∈ getChain s c.bucket := by
          rw [hiv]
          exact hvmem
        have hjc : j = c.bucket := hdisj j hj c.bucket hbk i hi him
        rw [hjc]
        exact hbkey.symm
      · rw [hgbo i hiv]
        exact hhash j hj i hi
    · intro i hi
      rw [hblen] at hi
      obtain ⟨j0, hj0, hm⟩ := hcompl i hi
      exact ⟨j0, hj0, by rw [hchAll j0]; exact hm⟩
    · intro i1 h1 i2 h2
      rw [hblen] at h1 h2
      by_cases hi1v : i1 = candSlot s c
      · by_cases hi2v : i2 = candSlot s c
        · left
          rw [hi1v, hi2v]
        · right; left
          rw [hi1v, hgbv, hgbo i2 hi2v]
          intro hkk
          simp only [keyOf, Prod.mk.injEq] at hkk
          exact habsent i2 h2 ⟨hkk.1.symm, hkk.2.symm⟩
      · by_cases hi2v : i2 = candSlot s c
        · right; left
          rw [hi2v, hgbv, hgbo i1 hi1v]
          intro hkk
          simp only [keyOf, Prod.mk.injEq] at hkk
          exact habsent i1 h1 ⟨hkk.1, hkk.2⟩
        · rw [hgbo i1 hi1v, hgbo i2 hi2v]
          exact huniq i1 h1 i2 h2
  · -- relocation: the victim moves from c.bucket into the target bucket
    have hchK : getChain (bgetEvict s d bl t c c.bucket).1 (bufmapHash d bl) =
        candSlot s c :: getChain s (bufmapHash d bl) := by
      rw [hch _]
      simp [hbkey]
    have hchC : getChain (bgetEvict s d bl t c c.bucket).1 c.bucket =
        (getChain s c.bucket).eraseIdx c.pos := by
      rw [hch _]
      simp [hbkey, Ne.symm hbkey]
    have hchO : ∀ j, j ≠ bufmapHash d bl → j ≠ c.bucket →
        getChain (bgetEvict s d bl t c c.bucket).1 j = getChain s j := by
      intro j h1 h2
      rw [hch j]
      simp [hbkey, h1, h2]
    have hvnotk : candSlot s c ∉ getChain s (bufmapHash d bl) := by
      intro hvk
      exact hbkey (hdisj c.bucket hbk _ hkeylt _ hvmem hvk)
    have hvnotea : candSlot s c ∉ (getChain s c.bucket).eraseIdx c.pos :=
      getD_eraseIdx_not_mem (getChain s c.bucket) c.pos (hnd c.bucket hbk) hgood.1
    have han : ∀ j, j < NBUCKET → ∀ i,
        i ∈ getChain (bgetEvict s d bl t c c.bucket).1 j →
        (i = candSlot s c ∧ j = bufmapHash d bl) ∨
        (i ∈ getChain s j ∧ i ≠ candSlot s c) := by
      intro j hj i hij
      by_cases hjk : j = bufmapHash d bl
      · subst hjk
        rw [hchK] at hij
        rcases List.mem_cons.1 hij with rfl | h2
        · exact Or.inl ⟨rfl, rfl⟩
        · exact Or.inr ⟨h2, fun hiv => hvnotk (hiv ▸ h2)⟩
      · by_cases hjc : j = c.bucket
        · subst hjc
          rw [hchC] at hij
          exact Or.inr ⟨List.mem_of_mem_eraseIdx hij, fun hiv => hvnotea (hiv ▸ hij)⟩
        · rw [hchO j hjk hjc] at hij
          refine Or.inr ⟨hij, ?_⟩
          intro hiv
          exact hjc (hdisj j hj c.bucket hbk i hij (hiv ▸ hvmem))
    refine ⟨?_, ?_, ?_, ?_, ?_, ?_, ?_⟩
    · rw [hclen2, hlen]
    · intro j hj i hi
      rw [hblen]
      rcases han j hj i hi with ⟨rfl, _⟩ | ⟨ho, _⟩
      · exact hvlt
      · exact hmem j hj i ho
    · intro j hj
      by_cases hjk : j = bufmapHash d bl
      · subst hjk
        rw [hchK]
        exact List.nodup_cons.2 ⟨hvnotk, hnd _ hkeylt⟩
      · by_cases hjc : j = c.bucket
        · subst hjc
          rw [hchC]
          exact List.Nodup.eraseIdx c.pos (hnd c.bucket hbk)
        · rw [hchO j hjk hjc]
          exact hnd j hj
    · intro j1 hj1 j2 hj2 i hi1 hi2
      rcases han j1 hj1 i hi1 with ⟨hiv1, hk1⟩ | ⟨ho1, hne1⟩
      · rcases han j2 hj2 i hi2 with ⟨_, hk2⟩ | ⟨_, hne2⟩
        · rw [hk1, hk2]
        · exact absurd hiv1 hne2
      · rcases han j2 hj2 i hi2 with ⟨hiv2, _⟩ | ⟨ho2, _⟩
        · exact absurd hiv2 hne1
        · exact hdisj j1 hj1 j2 hj2 i ho1 ho2
    · intro j hj i hi
      rcases han j hj i hi with ⟨rfl, rfl⟩ | ⟨ho, hne⟩
      · rw [hgbv]
      · rw [hgbo i hne]
        exact hhash j hj i ho
    · intro i hi
      rw [hblen] at hi
      obtain ⟨j0, hj0, hm⟩ := hcompl i hi
      by_cases hiv : i = candSlot s c
      · refine ⟨bufmapHash d bl, hkeylt, ?_⟩
        rw [hchK, hiv]
        exact List.mem_cons_self _ _
      · by_cases hj0c : j0 = c.bucket
        · refine ⟨c.bucket, hbk, ?_⟩
          rw [hchC]
          exact mem_eraseIdx_of_ne (getChain s c.bucket) c.pos i (hj0c ▸ hm) hiv
        · by_cases hj0k : j0 = bufmapHash d bl
          · refine ⟨bufmapHash d bl, hkeylt, ?_⟩
            rw [hchK]
            exact List.mem_cons_of_mem _ (hj0k ▸ hm)
          · exact ⟨j0, hj0, by rw [hchO j0 hj0k hj0c]; exact hm⟩
    · intro i1 h1 i2 h2
      rw [hblen] at h1 h2
      by_cases hi1v : i1 = candSlot s c
      · by_cases hi2v : i2 = candSlot s c
        · left
          rw [hi1v, hi2v]
        · right; left
          rw [hi1v, hgbv, hgbo i2 hi2v]
          intro hkk
          simp only [keyOf, Prod.mk.injEq] at hkk
          exact habsent i2 h2 ⟨hkk.1.symm, hkk.2.symm⟩
      · by_cases hi2v : i2 = candSlot s c
        · right; left
          rw [hi2v, hgbv, hgbo i1 hi1v]
          intro hkk
          simp only [keyOf, Prod.mk.injEq] at hkk
          exact habsent i1 h1 ⟨hkk.1, hkk.2⟩
        · rw [hgbo i1 hi1v, hgbo i2 hi2v]
          exact huniq i1 h1 i2 h2

/-! ### bget-level lemmas -/

theorem bget_hit_eq (s : BCache) (d bl t i : Nat)
    (hf : findInChain s (getChain s (bufmapHash d bl)) d bl = some i) :
    bget s d bl t =
      (acquireSleep (bgetHit s i t) i, BGetOut.ok i,
        [Ev.acqBucket (bufmapHash d bl), Ev.relBucket (bufmapHash d bl),
         Ev.acqSleep i]) := by
  simp only [bget, hf]

theorem bget_slow_evict (s : BCache) (d bl t : Nat)
    (hmiss : findInChain s (getChain s (bufmapHash d bl)) d bl = none)
    (c : Cand) (hscan : (evictScan s).1 = some c) :
    bget s d bl t =
      ((bgetEvict s d bl t c c.bucket).1,
        BGetOut.ok (bgetEvict s d bl t c c.bucket).2.1,
        Ev.acqBucket (bufmapHash d bl) :: Ev.relBucket (bufmapHash d bl) ::
          Ev.acqCache ::
            ((evictScan s).2.2 ++ (bgetEvict s d bl t c c.bucket).2.2)) := by
  have hhold := evictScan_holding s c hscan
  rcases he : evictScan s with ⟨b1, h1, tr⟩
  rw [he] at hscan hhold
  have hb1 : b1 = some c := hscan
  have hh1 : h1 = some c.bucket := hhold
  subst hb1
  subst hh1
  simp only [bget, bgetSlow, hmiss, he, recheckEvents, Option.getD_some]
  rfl

theorem bget_panic_eq (s : BCache) (d bl t : Nat)
    (hmiss : findInChain s (getChain s (bufmapHash d bl)) d bl = none)
    (hnone : (evictScan s).1 = none) :
    (bget s d bl t).1 = s ∧ (bget s d bl t).2.1 = BGetOut.panic := by
  rcases he : evictScan s with ⟨b1, h1, tr⟩
  rw [he] at hnone
  have hb1 : b1 = none := hnone
  subst hb1
  constructor <;> simp only [bget, bgetSlow, hmiss, he, recheckEvents]

theorem inv_modifyBuf_keys (s : BCache) (i : Nat) (f : Buf → Buf)
    (hdev : ∀ b, (f b).dev = b.dev) (hblk : ∀ b, (f b).blockno = b.blockno)
    (hInv : Inv s) : Inv (modifyBuf s i f) := by
  obtain ⟨hlen, hmem, hnd, hdisj, hhash, hcompl, huniq⟩ := hInv
  have hdev2 : ∀ j, (getBuf (modifyBuf s i f) j).dev = (getBuf s j).dev := by
    intro j
    rw [getBuf_modifyBuf]
    by_cases h : i = j ∧ i < s.bufs.length
    · rw [if_pos h, hdev, h.1]
    · rw [if_neg h]
  have hblk2 : ∀ j, (getBuf (modifyBuf s i f) j).blockno = (getBuf s j).blockno := by
    intro j
    rw [getBuf_modifyBuf]
    by_cases h : i = j ∧ i < s.bufs.length
    · rw [if_pos h, hblk, h.1]
    · rw [if_neg h]
  have hkey2 : ∀ j, keyOf (getBuf (modifyBuf s i f) j) = keyOf (getBuf s j) := by
    intro j
    simp [keyOf, hdev2, hblk2]
  refine ⟨hlen, ?_, hnd, hdisj, ?_, ?_, ?_⟩
  · intro j hj i2 hi2
    rw [bufs_length_modifyBuf]
    exact hmem j hj i2 hi2
  · intro j hj i2 hi2
    rw [hdev2, hblk2]
    exact hhash j hj i2 hi2
  · intro i2 hi2
    rw [bufs_length_modifyBuf] at hi2
    exact hcompl i2 hi2
  · intro i1 h1 i2 h2
    rw [bufs_length_modifyBuf] at h1 h2
    rw [hkey2, hkey2]
    exact huniq i1 h1 i2 h2

theorem bget_hit_facts (s : BCache) (d bl t i : Nat) (hInv : Inv s)
    (hf : findInChain s (getChain s (bufmapHash d bl)) d bl = some i) :
    (bget s d bl t).2.1 = BGetOut.ok i ∧
    Inv (bget s d bl t).1 ∧
    (bget s d bl t).1.bufs.length = s.bufs.length ∧
    i < s.bufs.length ∧
    (getBuf (bget s d bl t).1 i).dev = d ∧
    (getBuf (bget s d bl t).1 i).blockno = bl ∧
    i ∈ getChain (bget s d bl t).1 (bufmapHash d bl) := by
  obtain ⟨hmemi, hdev, hblk⟩ := findInChain_some s d bl _ i hf
  have hilt : i < s.bufs.length :=
    hInv.2.1 (bufmapHash d bl) (bufmapHash_lt d bl) i hmemi
  have hmain := bget_hit_eq s d bl t i hf
  have hlen1 : (bgetHit s i t).bufs.length = s.bufs.length :=
    bufs_length_modifyBuf s i _
  have e1 : getBuf (bgetHit s i t) i =
      { getBuf s i with refcnt := uintInc (getBuf s i).refcnt, timestamp := t } :=
    getBuf_modifyBuf_self s i _ hilt
  have e2 : getBuf (acquireSleep (bgetHit s i t) i) i =
      { getBuf (bgetHit s i t) i with lockHeld := true } :=
    getBuf_modifyBuf_self (bgetHit s i t) i _ (hlen1 ▸ hilt)
  have hgb : getBuf (bget s d bl t).1 i =
      { getBuf s i with
          refcnt := uintInc (getBuf s i).refcnt
          timestamp := t
          lockHeld := true } := by
    rw [hmain]
    show getBuf (acquireSleep (bgetHit s i t) i) i = _
    rw [e2, e1]
  refine ⟨by rw [hmain], ?_, ?_, hilt, ?_, ?_, ?_⟩
  · rw [hmain]
    show Inv (acquireSleep (bgetHit s i t) i)
    rw [acquireSleep, bgetHit]
    exact inv_modifyBuf_keys _ _ _ (fun b => rfl) (fun b => rfl)
      (inv_modifyBuf_keys _ _ _ (fun b => rfl) (fun b => rfl) hInv)
  · rw [hmain]
    show (acquireSleep (bgetHit s i t) i).bufs.length = s.bufs.length
    rw [acquireSleep, bufs_length_modifyBuf, hlen1]
  · rw [hgb]
    exact hdev
  · rw [hgb]
    exact hblk
  · rw [hmain]
    exact hmemi

theorem bget_evict_facts2 (s : BCache) (d bl t : Nat) (hInv : Inv s)
    (hmiss : findInChain s (getChain s (bufmapHash d bl)) d bl = none)
    (c : Cand) (hscan : (evictScan s).1 = some c) :
    (bget s d bl t).2.1 = BGetOut.ok (candSlot s c) ∧
    Inv (bget s d bl t).1 ∧
    (bget s d bl t).1.bufs.length = s.bufs.length ∧
    candSlot s c < s.bufs.length ∧
    getBuf (bget s d bl t).1 (candSlot s c) =
      { dev := d, blockno := bl, valid := false, refcnt := 1, timestamp := t,
        lockHeld := true, data := (getBuf s (candSlot s c)).data } ∧
    candSlot s c ∈ getChain (bget s d bl t).1 (bufmapHash d bl) ∧
    (c.bucket ≠ bufmapHash d bl →
      getChain (bget s d bl t).1 (bufmapHash d bl) =
        candSlot s c :: getChain s (bufmapHash d bl)) ∧
    ((bget s d bl t).2.2).getLast? = some (Ev.acqSleep (candSlot s c)) := by
  have hgood := evictScan_good s c hscan
  have hbk := evictScan_bucket_lt s c hscan
  have hvmem : candSlot s c ∈ getChain s c.bucket := getD_mem _ _ hgood.1
  have hvlt : candSlot s c < s.bufs.length := hInv.2.1 c.bucket hbk _ hvmem
  obtain ⟨hout, hblen, hclen2, hgbv, hgbo, hch, hlast⟩ :=
    bgetEvict_facts s d bl t c hInv.1 hbk hvlt
  have hmain := bget_slow_evict s d bl t hmiss c hscan
  have hch2 : ∀ j, getChain (bget s d bl t).1 j =
      if c.bucket = bufmapHash d bl then getChain s j
      else if j = bufmapHash d bl then candSlot s c :: getChain s (bufmapHash d bl)
      else if j = c.bucket then (getChain s c.bucket).eraseIdx c.pos
      else getChain s j := by
    intro j
    rw [hmain]
    exact hch j
  refine ⟨?_, ?_, ?_, hvlt, ?_, ?_, ?_, ?_⟩
  · rw [hmain]
    show BGetOut.ok _ = _
    rw [hout]
  · rw [hmain]
    exact bgetEvict_inv s d bl t c hInv hmiss hgood hbk
  · rw [hmain]
    exact hblen
  · rw [hmain]
    exact hgbv
  · rw [hch2 _]
    by_cases hbkey : c.bucket = bufmapHash d bl
    · rw [if_pos hbkey, ← hbkey]
      exact hvmem
    · simp [hbkey]
  · intro hbkey
    rw [hch2 _]
    simp [hbkey]
  · have htr : (bget s d bl t).2.2 =
        [Ev.acqBucket (bufmapHash d bl), Ev.relBucket (bufmapHash d bl),
          Ev.acqCache] ++
          ((evictScan s).2.2 ++ (bgetEvict s d bl t c c.bucket).2.2) := by
      rw [hmain]
      rfl
    rw [htr, List.getLast?_append, List.getLast?_append, hlast]
    rfl

theorem bget_inv (s : BCache) (d bl t : Nat) (hInv : Inv s) :
    Inv (bget s d bl t).1 := by
  cases hf : findInChain s (getChain s (bufmapHash d bl)) d bl with
  | some i => exact (bget_hit_facts s d bl t i hInv hf).2.1
  | none =>
    cases hscan : (evictScan s).1 with
    | none =>
      rw [(bget_panic_eq s d bl t hf hscan).1]
      exact hInv
    | some c => exact (bget_evict_facts2 s d bl t hInv hf c hscan).2.1

/-! ### Claim theorems: the state of an evicted slot (C7) -/

/-- C7: when the slow path evicts (the requested key cached nowhere and the
scan returns a candidate), the slot handed back to the caller is the scan's
candidate; its `device`/`block_number` are the requested key, `valid` is
false, `ref_count` is 1, `last_used` is the current tick, the caller holds its
exclusive sleep lock (the trace ends with that acquisition), the slot sits in
the bucket the new key hashes to, and when the candidate came from a
different bucket it has been pushed at the head of the target bucket's
chain. -/
theorem c7_evicted_slot_state (s : BCache) (d bl t : Nat) (hInv : Inv s)
    (hmiss : findInChain s (getChain s (bufmapHash d bl)) d bl = none)
    (c : Cand) (hscan : (evictScan s).1 = some c) :
    (bget s d bl t).2.1 = BGetOut.ok (candSlot s c) ∧
    getBuf (bget s d bl t).1 (candSlot s c) =
      { dev := d, blockno := bl, valid := false, refcnt := 1, timestamp := t,
        lockHeld := true, data := (getBuf s (candSlot s c)).data } ∧
    candSlot s c ∈ getChain (bget s d bl t).1 (bufmapHash d bl) ∧
    (c.bucket ≠ bufmapHash d bl →
      getChain (bget s d bl t).1 (bufmapHash d bl) =
        candSlot s c :: getChain s (bufmapHash d bl)) ∧
    ((bget s d bl t).2.2).getLast? = some (Ev.acqSleep (candSlot s c)) := by
  obtain ⟨h1, _, _, _, h5, h6, h7, h8⟩ := bget_evict_facts2 s d bl t hInv hmiss c hscan
  exact ⟨h1, h5, h6, h7, h8⟩

/-- C7 witness: on a fresh two-slot cache, looking up the uncached key (1, 1)
at tick 5 evicts the scan's candidate (slot 1) and returns it. -/
theorem c7_witness :
    (bget (binit 2) 1 1 5).2.1 = BGetOut.ok (candSlot (binit 2) ⟨0, 0⟩) :=
  (c7_evicted_slot_state (binit 2) 1 1 5 (by decide) (by decide) ⟨0, 0⟩
    (by decide)).1

/-! ### Invariant machinery for histories -/

theorem inv_binit (nbuf : Nat) : Inv (binit nbuf) := by
  have hchain0 : getChain (binit nbuf) 0 = (List.range nbuf).reverse := rfl
  have hchainS : ∀ p : Nat, getChain (binit nbuf) (p + 1) = [] := by
    intro p
    show (List.replicate (NBUCKET - 1) ([] : List Nat)).getD p [] = []
    rw [List.getD_eq_getElem?_getD, List.getElem?_replicate]
    split <;> rfl
  have hbuf : ∀ i, getBuf (binit nbuf) i = buf0 := by
    intro i
    show (List.replicate nbuf buf0).getD i buf0 = buf0
    rw [List.getD_eq_getElem?_getD, List.getElem?_replicate]
    split <;> rfl
  have hblen : (binit nbuf).bufs.length = nbuf := by
    simp [binit]
  refine ⟨?_, ?_, ?_, ?_, ?_, ?_, ?_⟩
  · show ((List.range nbuf).reverse :: List.replicate (NBUCKET - 1) []).length = NBUCKET
    simp only [List.length_cons, List.length_replicate]
    decide
  · intro j hj i hi
    rw [hblen]
    cases j with
    | zero =>
      rw [hchain0] at hi
      simpa using hi
    | succ p =>
      rw [hchainS p] at hi
      cases hi
  · intro j hj
    cases j with
    | zero =>
      rw [hchain0]
      exact List.nodup_reverse.2 (List.nodup_range nbuf)
    | succ p =>
      rw [hchainS p]
      exact List.nodup_nil
  · intro j1 hj1 j2 hj2 i hi1 hi2
    cases j1 with
    | zero =>
      cases j2 with
      | zero => rfl
      | succ p =>
        rw [hchainS p] at hi2
        cases hi2
    | succ p =>
      rw [hchainS p] at hi1
      cases hi1
  · intro j hj i hi
    cases j with
    | zero =>
      rw [hbuf i]
      decide
    | succ p =>
      rw [hchainS p] at hi
      cases hi
  · intro i hi
    rw [hblen] at hi
    refine ⟨0, by decide, ?_⟩
    rw [hchain0]
    simpa using hi
  · intro i1 h1 i2 h2
    right; right
    rw [hbuf i1]
    rfl

theorem step_inv (dk : Disk) (s : BCache) (op : Op) (hInv : Inv s) :
    Inv (step dk s op) := by
  cases op with
  | get d bl t => exact bget_inv s d bl t hInv
  | read d bl t =>
    show Inv (bread s dk d bl t).1
    rcases hb : bget s d bl t with ⟨s1, out, tr⟩
    have hInv1 : Inv s1 := by
      have h := bget_inv s d bl t hInv
      rw [hb] at h
      exact h
    cases out with
    | ok i =>
      simp only [bread, hb]
      by_cases hv : (getBuf s1 i).valid = true
      · rw [if_pos hv]
        exact hInv1
      · rw [if_neg hv]
        exact inv_modifyBuf_keys s1 i _ (fun b => rfl) (fun b => rfl) hInv1
    | panic =>
      simp only [bread, hb]
      exact hInv1
  | rel i t =>
    show Inv ((brelse s i t).getD s)
    by_cases hheld : (getBuf s i).lockHeld = true
    · rw [brelse, if_pos hheld]
      simp only [Option.getD_some]
      exact inv_modifyBuf_keys s i _ (fun b => rfl) (fun b => rfl) hInv
    · rw [brelse, if_neg hheld]
      exact hInv
  | pin i => exact inv_modifyBuf_keys s i _ (fun b => rfl) (fun b => rfl) hInv
  | unpin i => exact inv_modifyBuf_keys s i _ (fun b => rfl) (fun b => rfl) hInv

theorem foldl_inv (dk : Disk) :
    ∀ (ops : List Op) (s : BCache), Inv s → Inv (ops.foldl (step dk) s) := by
  intro ops
  induction ops with
  | nil => intro s h; exact h
  | cons op rest ih => intro s h; exact ih (step dk s op) (step_inv dk s op h)

theorem run_inv (nbuf : Nat) (dk : Disk) (ops : List Op) : Inv (run nbuf dk ops) :=
  foldl_inv dk ops (binit nbuf) (inv_binit nbuf)

/-! ### Counting slots that hold a key -/

theorem countP_le_one_of_at_most_one {α : Type} (p : α → Bool) :
    ∀ (l : List α),
      (∀ i1, (h1 : i1 < l.length) → ∀ i2, (h2 : i2 < l.length) →
        p (l.get ⟨i1, h1⟩) = true → p (l.get ⟨i2, h2⟩) = true → i1 = i2) →
      l.countP p ≤ 1 := by
  intro l
  induction l with
  | nil => intro _; simp
  | cons a l2 ih =>
    intro h
    by_cases hpa : p a = true
    · rw [List.countP_cons_of_pos p l2 hpa]
      have hz : l2.countP p = 0 := by
        rw [List.countP_eq_zero]
        intro x hx hpx
        obtain ⟨k, hk, hxk⟩ := List.mem_iff_getElem.1 hx
        have h0k := h 0 (Nat.succ_pos _) (k + 1) (Nat.succ_lt_succ hk) hpa
          (by
            show p (l2.get ⟨k, hk⟩) = true
            rw [show l2.get ⟨k, hk⟩ = x from hxk]
            exact hpx)
        cases h0k
      rw [hz]
    · rw [List.countP_cons_of_neg p l2 hpa]
      apply ih
      intro i1 h1 i2 h2 hp1 hp2
      have hs := h (i1 + 1) (Nat.succ_lt_succ h1) (i2 + 1) (Nat.succ_lt_succ h2)
        hp1 hp2
      exact Nat.succ_injective hs

theorem countKey_le_one (s : BCache) (d bl : Nat) (hInv : Inv s)
    (hne : ¬(d = 0 ∧ bl = 0)) : countKey s d bl ≤ 1 := by
  apply countP_le_one_of_at_most_one
  intro i1 h1 i2 h2 hp1 hp2
  have hg : ∀ i, (h : i < s.bufs.length) → s.bufs.get ⟨i, h⟩ = getBuf s i := by
    intro i h
    simp [getBuf, List.getD_eq_getElem?_getD, List.getElem?_eq_getElem h]
  rw [hg i1 h1] at hp1
  rw [hg i2 h2] at hp2
  simp only [Bool.and_eq_true, beq_iff_eq] at hp1 hp2
  rcases hInv.2.2.2.2.2.2 i1 h1 i2 h2 with heq | hkne | hk0
  · exact heq
  · exact absurd (by simp [keyOf, hp1.1, hp1.2, hp2.1, hp2.2]) hkne
  · exfalso
    apply hne
    simp only [keyOf, hp1.1, hp1.2, Prod.mk.injEq] at hk0
    exact hk0

theorem slow_returns_same (s1 : BCache) (d bl t2 v : Nat) (hInv1 : Inv s1)
    (hvlt : v < s1.bufs.length)
    (hdev : (getBuf s1 v).dev = d) (hblk : (getBuf s1 v).blockno = bl)
    (hmem : v ∈ getChain s1 (bufmapHash d bl)) (hne : ¬(d = 0 ∧ bl = 0)) :
    (bgetSlow s1 d bl t2).2.1 = BGetOut.ok v := by
  obtain ⟨j, hj⟩ := findInChain_found s1 d bl _ v hmem hdev hblk
  obtain ⟨hjmem, hjdev, hjblk⟩ := findInChain_some s1 d bl _ j hj
  have hjlt : j < s1.bufs.length :=
    hInv1.2.1 (bufmapHash d bl) (bufmapHash_lt d bl) j hjmem
  have hjv : j = v := by
    rcases hInv1.2.2.2.2.2.2 j hjlt v hvlt with heq | hkne | hk0
    · exact heq
    · exact absurd (by simp [keyOf, hjdev, hjblk, hdev, hblk]) hkne
    · exfalso
      apply hne
      simp only [keyOf, hjdev, hjblk, Prod.mk.injEq] at hk0
      exact hk0
  rw [show (bgetSlow s1 d bl t2).2.1 = BGetOut.ok j by simp only [bgetSlow, hj], hjv]

/-! ### Claim theorems: key uniqueness (C1) -/

/-- C1 counterexample: the initialization itself violates "at most one slot
holds a given key": the empty history from a two-slot pool (a reachable
state — it IS the initial state) leaves both slots holding the zero-filled
key (0, 0), so the count for (0, 0) is 2. -/
theorem c1_counterexample :
    ¬(∀ (nbuf : Nat) (dk : Disk) (ops : List Op) (d bl : Nat),
        countKey (run nbuf dk ops) d bl ≤ 1) := by
  intro h
  exact absurd (h 2 [] [] 0 0) (by decide)

/-- C1 (amended): in every state reachable by a history of lookups
(Read/bget), releases, pins and unpins from initialization, at most one pool
slot holds any given (device, block_number) key other than the all-zero
placeholder key (0, 0) that initialization gives every slot; and when one
lookup has returned slot `v` for a key, a second lookup's slow path run on
the resulting state observes that slot in its re-check and returns the same
slot `v` instead of claiming another slot for the key. -/
theorem c1_key_uniqueness :
    (∀ (nbuf : Nat) (dk : Disk) (ops : List Op) (d bl : Nat), ¬(d = 0 ∧ bl = 0) →
      countKey (run nbuf dk ops) d bl ≤ 1) ∧
    (∀ (s : BCache) (d bl t t2 v : Nat), Inv s → ¬(d = 0 ∧ bl = 0) →
      (bget s d bl t).2.1 = BGetOut.ok v →
      (bgetSlow (bget s d bl t).1 d bl t2).2.1 = BGetOut.ok v) := by
  constructor
  · intro nbuf dk ops d bl hne
    exact countKey_le_one (run nbuf dk ops) d bl (run_inv nbuf dk ops) hne
  · intro s d bl t t2 v hInv hne hok
    cases hf : findInChain s (getChain s (bufmapHash d bl)) d bl with
    | some i =>
      obtain ⟨hokk, hInv1, hblen, hilt, hdev, hblk, hmem⟩ :=
        bget_hit_facts s d bl t i hInv hf
      have hiv : i = v := by
        rw [hokk] at hok
        cases hok
        rfl
      subst hiv
      exact slow_returns_same (bget s d bl t).1 d bl t2 i hInv1
        (by rw [hblen]; exact hilt) hdev hblk hmem hne
    | none =>
      cases hscan : (evictScan s).1 with
      | none =>
        rw [(bget_panic_eq s d bl t hf hscan).2] at hok
        cases hok
      | some c =>
        obtain ⟨hokk, hInv1, hblen, hvlt, hgbv, hmem, _, _⟩ :=
          bget_evict_facts2 s d bl t hInv hf c hscan
        have hveq : candSlot s c = v := by
          rw [hokk] at hok
          cases hok
          rfl
        subst hveq
        exact slow_returns_same (bget s d bl t).1 d bl t2 (candSlot s c) hInv1
          (by rw [hblen]; exact hvlt) (by rw [hgbv]) (by rw [hgbv]) hmem hne

/-- C1 witness: a fresh two-slot cache satisfies the uniqueness bound for the
key (1, 1), and after a first lookup of (1, 1) returns slot 1, a second
lookup's slow path returns the same slot 1. -/
theorem c1_witness :
    countKey (run 2 [] [Op.get 1 1 5]) 1 1 ≤ 1 ∧
    (bgetSlow (bget (binit 2) 1 1 5).1 1 1 6).2.1 = BGetOut.ok 1 :=
  ⟨c1_key_uniqueness.1 2 [] [Op.get 1 1 5] 1 1 (by decide),
   c1_key_uniqueness.2 (binit 2) 1 1 5 6 1 (by decide) (by decide) (by decide)⟩

end Bio
